import Mathlib

/-!
Verification of the JSON codec in `src/native/json/modjson.c` (module `json`):
a fuelled shallow embedding of the non-recursive, explicit-stack decoder
(`json_load_impl`) and of the recursive serializer (`serialize_obj`,
`escape_string`, `add_indent`, `key_compare`), together with theorems about
the behaviour the specification claims.

Bytes are modelled as `Nat` (values < 256 where it matters, with explicit
`% 256` for the C `byte` arithmetic); byte strings as `List Nat`.
-/

/-- The abstract host float (`mp_float_t`).  The host's float parser and
`%.15g` formatter are external to the codec (spec §6: the value model is an
external interface); only the `isnan`/`isinf` classification, which the
serializer inspects, is modelled concretely.  `fmt` stands for the bytes the
host formatter would produce for the value. -/
structure MpFloat where
  isnan : Bool
  isinf : Bool
  fmt : List Nat
deriving DecidableEq

/-- Host values (`mp_obj_t`) as far as the codec can observe them: the JSON
variants, tuples (which `serialize_obj` also accepts), and `vother` for any
object of a type the serializer rejects.  Dict entries are kept in the
dict's iteration order; keys are arbitrary values because the decoder can
store non-string keys (see `json_load_impl` lines 205-213). -/
inductive HValue where
  | vnone : HValue
  | vbool : Bool → HValue
  | vint : Int → HValue
  | vfloat : MpFloat → HValue
  | vstr : List Nat → HValue
  | vlist : List HValue → HValue
  | vtuple : List HValue → HValue
  | vdict : List (HValue × HValue) → HValue
  | vother : HValue

/-- Host-value equality (`mp_obj_equal`) restricted to the values that can
reach a dict-key comparison in the decoder.  Every key the decoder stores is
a leaf (a container in key position is rejected, `json_load_impl` line 208).
Deliberate simplification: the host compares numbers numerically across
types (`True == 1`, `1 == 1.0`), which this structural equality does not
model, so `dictStore` can keep duplicate entries a real `mp_map` would
coalesce.  No theorem below depends on it: none of their concrete inputs
repeats a key, and the universal dict lemmas carry an explicit
duplicate-free-keys hypothesis (`NKeys`/`Nodup`) instead. -/
def hleafEq : HValue → HValue → Bool
  | .vnone, .vnone => true
  | .vbool x, .vbool y => x == y
  | .vint x, .vint y => x == y
  | .vfloat x, .vfloat y => x == y
  | .vstr x, .vstr y => x == y
  | _, _ => false

/-- The byte stream (`json_stream_t`): `cur` is the current byte, `0`
(`S_EOF`) signals end of input, `rest` the bytes not yet read. -/
structure JStream where
  cur : Nat
  rest : List Nat
deriving DecidableEq

/-- `S_NEXT`: read one byte; at end of input `cur` becomes `S_EOF = 0`. -/
def JStream.adv (s : JStream) : JStream :=
  match s.rest with
  | [] => ⟨0, []⟩
  | b :: r => ⟨b, r⟩

/-! ## Decoder (`json_load_impl`, lines 58-242) -/

/-- Decode-side failure.  `decodeError` covers every exception the decode
path raises (`syntax error in JSON` and the host number parsers' errors);
`outOfFuel` is an artefact of the fuelled model and is never produced when
the fuel bound chosen by `jsonLoads` is respected. -/
inductive DecErr where
  | decodeError : DecErr
  | outOfFuel : DecErr
deriving DecidableEq

/-- One hex-ish digit of a `\uXXXX` escape, exactly as computed at lines
126-129: `c = (S_NEXT(s) | 0x20) - '0'; if (c > 9) c -= 39;` in `byte`
(mod-256) arithmetic.  No validation happens. -/
def hexNibble (c : Nat) : Nat :=
  let c1 := ((c ||| 32) + 256 - 48) % 256
  if 9 < c1 then (c1 + 256 - 39) % 256 else c1

/-- `vstr_add_char`: append one code point, UTF-8 encoded. -/
def utf8Enc (c : Nat) : List Nat :=
  if c < 128 then [c]
  else if c < 2048 then [192 ||| (c >>> 6), 128 ||| (c &&& 63)]
  else if c < 65536 then
    [224 ||| (c >>> 12), 128 ||| ((c >>> 6) &&& 63), 128 ||| (c &&& 63)]
  else
    [240 ||| (c >>> 18), 128 ||| ((c >>> 12) &&& 63),
     128 ||| ((c >>> 6) &&& 63), 128 ||| (c &&& 63)]

/-- The string-scanning loop (lines 111-145).  On entry `s.cur` is the byte
after the opening quote.  Escapes outside `b f n r t u` fall through the C
`switch` and the escaped byte is appended verbatim; `\u` consumes four bytes
unconditionally through `hexNibble`.  End of input before the closing quote
is the only failure. -/
def scanStr : Nat → List Nat → JStream → Except DecErr (List Nat × JStream)
  | 0, _, _ => .error .outOfFuel
  | fuel + 1, acc, s =>
    if s.cur = 0 then .error .decodeError
    else if s.cur = 34 then .ok (acc, s.adv)
    else if s.cur = 92 then
      let s1 := s.adv
      let c := s1.cur
      if c = 98 then scanStr fuel (acc ++ [8]) s1.adv
      else if c = 102 then scanStr fuel (acc ++ [12]) s1.adv
      else if c = 110 then scanStr fuel (acc ++ [10]) s1.adv
      else if c = 114 then scanStr fuel (acc ++ [13]) s1.adv
      else if c = 116 then scanStr fuel (acc ++ [9]) s1.adv
      else if c = 117 then
        let s2 := s1.adv
        let s3 := s2.adv
        let s4 := s3.adv
        let s5 := s4.adv
        let num := ((((hexNibble s2.cur <<< 4) ||| hexNibble s3.cur) <<< 4 |||
            hexNibble s4.cur) <<< 4) ||| hexNibble s5.cur
        scanStr fuel (acc ++ utf8Enc num) s5.adv
      else scanStr fuel (acc ++ [c]) s1.adv
    else scanStr fuel (acc ++ [s.cur]) s.adv

/-- The number-scanning loop (lines 150-163): accumulate `cur`, then keep
consuming while the next byte is `.`/`e`/`E` (which sets the float flag) or
a sign or digit. -/
def scanNum : Nat → List Nat → Nat → Bool → JStream → List Nat × Bool × JStream
  | 0, acc, cur, flt, s => (acc ++ [cur], flt, s)
  | fuel + 1, acc, cur, flt, s =>
    let acc1 := acc ++ [cur]
    let c := s.cur
    if c = 46 ∨ c = 69 ∨ c = 101 then scanNum fuel acc1 c true s.adv
    else if c = 43 ∨ c = 45 ∨ (48 ≤ c ∧ c ≤ 57) then scanNum fuel acc1 c flt s.adv
    else (acc1, flt, s)

/-- Digit-string accumulation for the integer parser. -/
def parseDigits : List Nat → Nat → Option Nat
  | [], acc => some acc
  | c :: r, acc =>
    if 48 ≤ c ∧ c ≤ 57 then parseDigits r (acc * 10 + (c - 48)) else none

/-- Modelled from the spec: the host integer parser (`mp_parse_num_integer`,
external to the codec, spec §4.1 "parse the accumulated literal using the
chosen numeric representation's parser") on the scanner's alphabet —
optional sign followed by at least one decimal digit, anything else a
failure.  Integers are unbounded (the host has big integers). -/
def parseIntLit : List Nat → Option Int
  | 45 :: r => if r = [] then none else (parseDigits r 0).map fun n => -(n : Int)
  | 43 :: r => if r = [] then none else (parseDigits r 0).map fun n => (n : Int)
  | r => if r = [] then none else (parseDigits r 0).map fun n => (n : Int)

/-- Leading digits of a byte list. -/
def splitDigits : List Nat → List Nat × List Nat
  | [] => ([], [])
  | c :: r =>
    if 48 ≤ c ∧ c ≤ 57 then
      let (d, t) := splitDigits r
      (c :: d, t)
    else ([], c :: r)

/-- Modelled from the spec: the host float parser (`mp_parse_num_float`,
external to the codec) — accepts `[+-]? digits [. digits]? ([eE][+-]?digits)?`
with at least one mantissa digit, and yields a finite float abstracted as an
`MpFloat` that remembers the literal.  The IEEE-754 value itself is outside
the shallow embedding. -/
def parseFloatLit (l : List Nat) : Option MpFloat :=
  let l1 := match l with
    | 43 :: r => r
    | 45 :: r => r
    | r => r
  let (d1, r1) := splitDigits l1
  let (d2, r2) := match r1 with
    | 46 :: r => splitDigits r
    | r => (([] : List Nat), r)
  if d1 = [] ∧ d2 = [] then none
  else
    match r2 with
    | [] => some ⟨false, false, l⟩
    | e :: r3 =>
      if e = 69 ∨ e = 101 then
        let r4 := match r3 with
          | 43 :: r => r
          | 45 :: r => r
          | r => r
        let (d3, r5) := splitDigits r4
        if d3 = [] ∨ r5 ≠ [] then none else some ⟨false, false, l⟩
      else none

/-- An open container under construction (`stack_top` together with its
type tag). -/
inductive Frame where
  | arrF : List HValue → Frame
  | objF : List (HValue × HValue) → Frame

/-- A suspended parent container on the explicit stack.  In the C code the
parent already holds a reference to the child and the child is mutated in
place; here the parent instead remembers everything before the child
(`arrP` = the earlier elements, `objP` = the earlier pairs plus the key the
child will be stored under), and the child is folded in when it closes. -/
inductive PFrame where
  | arrP : List HValue → PFrame
  | objP : List (HValue × HValue) → HValue → PFrame

/-- `mp_obj_dict_store`: replace the value in place if the key is present,
else append. -/
def dictStore : List (HValue × HValue) → HValue → HValue → List (HValue × HValue)
  | [], k, v => [(k, v)]
  | (k', v') :: rest, k, v =>
    if hleafEq k' k then (k', v) :: rest else (k', v') :: dictStore rest k v

/-- The value of a finished container. -/
def Frame.close : Frame → HValue
  | .arrF items => .vlist items
  | .objF pairs => .vdict pairs

/-- Resume a suspended parent with its finished child. -/
def PFrame.fold : PFrame → HValue → Frame
  | .arrP items, v => .arrF (items ++ [v])
  | .objP pairs k, v => .objF (dictStore pairs k v)

/-- A significant token: a complete leaf value, or the opening of a new
container (`[` / `{`, which in the C code sets `enter = true`). -/
inductive Tok where
  | val : HValue → Tok
  | openArr : Tok
  | openObj : Tok

/-- Result of attaching a token to the current state. -/
inductive AttachRes where
  | fail : AttachRes
  | done : HValue → List PFrame → AttachRes
  | cont : Option Frame → List PFrame → Option HValue → AttachRes

/-- Lines 195-225: attach a fresh value or container to the state
(`stack_top`, `stack`, `stack_key`).  Note that `stack_key` is a single
global slot, not part of a stack frame, and that opening a container in
object-key position is the only key-type check the decoder performs. -/
def attachStep : Option Frame → List PFrame → Option HValue → Tok → AttachRes
  | none, stk, _, .val v => .done v stk
  | none, stk, key, .openArr => .cont (some (.arrF [])) stk key
  | none, stk, key, .openObj => .cont (some (.objF [])) stk key
  | some (.arrF items), stk, key, .val v => .cont (some (.arrF (items ++ [v]))) stk key
  | some (.arrF items), stk, key, .openArr => .cont (some (.arrF [])) (.arrP items :: stk) key
  | some (.arrF items), stk, key, .openObj => .cont (some (.objF [])) (.arrP items :: stk) key
  | some (.objF pairs), stk, none, .val v => .cont (some (.objF pairs)) stk (some v)
  | some (.objF _), _, none, .openArr => .fail
  | some (.objF _), _, none, .openObj => .fail
  | some (.objF pairs), stk, some k, .val v =>
      .cont (some (.objF (dictStore pairs k v))) stk none
  | some (.objF pairs), stk, some k, .openArr => .cont (some (.arrF [])) (.objP pairs k :: stk) none
  | some (.objF pairs), stk, some k, .openObj => .cont (some (.objF [])) (.objP pairs k :: stk) none

/-- Read one significant token whose first byte `c` has already been
consumed; `s1` is the stream just after `c`.  Covers the keyword, string,
and number cases of the dispatch `switch` plus the two container openers;
any other byte is the `default: goto fail`. -/
def readTok (fuel : Nat) (c : Nat) (s1 : JStream) : Except DecErr (Tok × JStream) :=
  if c = 110 then
    if s1.cur = 117 ∧ s1.adv.cur = 108 ∧ s1.adv.adv.cur = 108 then
      .ok (.val .vnone, s1.adv.adv.adv)
    else .error .decodeError
  else if c = 102 then
    if s1.cur = 97 ∧ s1.adv.cur = 108 ∧ s1.adv.adv.cur = 115 ∧ s1.adv.adv.adv.cur = 101 then
      .ok (.val (.vbool false), s1.adv.adv.adv.adv)
    else .error .decodeError
  else if c = 116 then
    if s1.cur = 114 ∧ s1.adv.cur = 117 ∧ s1.adv.adv.cur = 101 then
      .ok (.val (.vbool true), s1.adv.adv.adv)
    else .error .decodeError
  else if c = 34 then
    match scanStr fuel [] s1 with
    | .error e => .error e
    | .ok (bytes, s2) => .ok (.val (.vstr bytes), s2)
  else if c = 45 ∨ (48 ≤ c ∧ c ≤ 57) then
    let r := scanNum fuel [] c false s1
    if r.2.1 then
      match parseFloatLit r.1 with
      | some f => .ok (.val (.vfloat f), r.2.2)
      | none => .error .decodeError
    else
      match parseIntLit r.1 with
      | some n => .ok (.val (.vint n), r.2.2)
      | none => .error .decodeError
  else if c = 91 then .ok (.openArr, s1)
  else if c = 123 then .ok (.openObj, s1)
  else .error .decodeError

/-- Decoder result: the decoded value, the residual container stack (always
empty on the reachable success paths) and the stream position after the
value. -/
abbrev DRes := Except DecErr (HValue × List PFrame × JStream)

/-- The decoder's single dispatch loop (lines 70-226).  One fuel unit per
iteration; each iteration consumes at least one byte, so
`input length + 2` fuel always suffices. -/
def decLoop : Nat → JStream → Option Frame → List PFrame → Option HValue → DRes
  | 0, _, _, _, _ => .error .outOfFuel
  | fuel + 1, s, top, stk, key =>
    if s.cur = 0 then .error .decodeError
    else
      let c := s.cur
      let s1 := s.adv
      if c = 44 ∨ c = 58 ∨ c = 32 ∨ c = 9 ∨ c = 10 ∨ c = 13 then
        decLoop fuel s1 top stk key
      else if c = 93 ∨ c = 125 then
        match top with
        | none => .error .decodeError
        | some t =>
          match stk with
          | [] => .ok (t.close, [], s1)
          | fr :: stk' => decLoop fuel s1 (some (fr.fold t.close)) stk' key
      else
        match readTok fuel c s1 with
        | .error e => .error e
        | .ok (tok, s2) =>
          match attachStep top stk key tok with
          | .fail => .error .decodeError
          | .done v stk' => .ok (v, stk', s2)
          | .cont top' stk' key' => decLoop fuel s2 top' stk' key'

/-- `unichar_isspace`. -/
def isSpaceB (c : Nat) : Bool := c == 32 || (9 ≤ c && c ≤ 13)

/-- The trailing-whitespace skip at lines 228-230. -/
def skipWs : Nat → JStream → JStream
  | 0, s => s
  | fuel + 1, s => if isSpaceB s.cur then skipWs fuel s.adv else s

/-- `json.loads` on a byte string (`json_loads` over `json_load_impl`):
run the loop from a freshly primed stream, then require only whitespace up
to end of input and an empty container stack. -/
def jsonLoads (bs : List Nat) : Except DecErr HValue :=
  match decLoop (bs.length + 2) (JStream.adv ⟨0, bs⟩) none [] none with
  | .error e => .error e
  | .ok (v, stk, s) =>
    if (skipWs (s.rest.length + 1) s).cur = 0 then
      match stk with
      | [] => .ok v
      | _ :: _ => .error .decodeError
    else .error .decodeError

/-- ASCII bytes of a Lean string, for readable concrete inputs. -/
def asciiBytes (t : String) : List Nat := t.data.map Char.toNat

/-! ## Encoder (`serialize_obj` and helpers, lines 265-437) -/

/-- Encode-side failure, one constructor per `raise` site reachable from the
serializer (plus the fuel artefact): the NaN/Infinity `ValueError`, the
`keys must be strings` `TypeError`, the `not JSON serializable` `TypeError`,
the `OverflowError` that `mp_obj_get_int` (host code called at line 334)
raises for a big int wider than `mp_int_t`, and the unreachable missing-key
lookup. -/
inductive EncErr where
  | floatOutOfRange : EncErr
  | keysMustBeStrings : EncErr
  | notSerializable : EncErr
  | keyMissing : EncErr
  | overflow : EncErr
  | outOfFuel : EncErr
deriving DecidableEq

/-- Modelled from the spec of the host runtime (`mp_obj_get_int` is external
to `src/`): whether an integer fits the signed machine word `mp_int_t` of
width `W` bits, i.e. lies in `[-2^(W-1), 2^(W-1))`.  The width is a
parameter of the model (32 and 64 are the widths of real hosts); outside
this range `mp_obj_get_int` raises `OverflowError` instead of returning. -/
def fitsWord (W : Nat) (n : Int) : Bool :=
  decide (-((2 : Int) ^ (W - 1)) ≤ n) && decide (n < (2 : Int) ^ (W - 1))

/-- One lowercase hex digit. -/
def hexDigit (n : Nat) : Nat := if n < 10 then 48 + n else 87 + n

/-- The four hex digits of `snprintf("\\u%04x", c)` for `c < 0x10000`. -/
def hex4 (c : Nat) : List Nat :=
  [hexDigit (c / 4096 % 16), hexDigit (c / 256 % 16), hexDigit (c / 16 % 16), hexDigit (c % 16)]

/-- The escape of one byte inside `escape_string` (lines 268-286): the named
escapes, `\u00XX` for other bytes below 0x20, everything else verbatim. -/
def escByte (c : Nat) : List Nat :=
  if c = 34 then [92, 34]
  else if c = 92 then [92, 92]
  else if c = 10 then [92, 110]
  else if c = 13 then [92, 114]
  else if c = 9 then [92, 116]
  else if c = 8 then [92, 98]
  else if c = 12 then [92, 102]
  else if c < 32 then 92 :: 117 :: hex4 c
  else [c]

/-- `escape_string`: quote, escape each byte, quote. -/
def escapeString (t : List Nat) : List Nat := 34 :: (t.flatMap escByte ++ [34])

/-- `add_indent`: a newline plus `indent * level` spaces when indenting,
nothing in compact mode (lines 292-299). -/
def addIndent (indent level : Nat) : List Nat :=
  if 0 < indent then 10 :: List.replicate (indent * level) 32 else []

/-- Decimal digits of a natural number, with fuel. -/
def natDecAux : Nat → Nat → List Nat → List Nat
  | 0, _, acc => acc
  | fuel + 1, n, acc =>
    if n < 10 then (48 + n) :: acc else natDecAux fuel (n / 10) ((48 + n % 10) :: acc)

/-- Decimal digits of a natural number. -/
def natDec (n : Nat) : List Nat := natDecAux (n + 1) n []

/-- `snprintf("%ld", val)`: minus sign for negatives, plain digits
otherwise. -/
def intDec (i : Int) : List Nat :=
  if i < 0 then 45 :: natDec (-i).toNat else natDec i.toNat

/-- `key_compare` (lines 302-314): `memcmp` over the common prefix — the
sign of the first differing byte — and the length difference as tiebreak. -/
def keyCompare : List Nat → List Nat → Int
  | [], [] => 0
  | [], _ :: bs => -(1 + (bs.length : Int))
  | _ :: as, [] => 1 + (as.length : Int)
  | a :: as, b :: bs => if a = b then keyCompare as bs else (a : Int) - (b : Int)

/-- The inner bubble-sort pass (lines 392-398) performing `n` adjacent
comparisons from the front, swapping when `key_compare > 0`. -/
def innerPass : Nat → List (List Nat) → List (List Nat)
  | 0, l => l
  | _ + 1, [] => []
  | _ + 1, [a] => [a]
  | n + 1, a :: b :: t =>
    if 0 < keyCompare a b then b :: innerPass n (a :: t) else a :: innerPass n (b :: t)

/-- The outer bubble-sort loop (lines 391-399): passes of `m, m-1, …, 1`
comparisons. -/
def bubbleAux : Nat → List (List Nat) → List (List Nat)
  | 0, l => l
  | m + 1, l => bubbleAux m (innerPass (m + 1) l)

/-- The key sort performed when `sort_keys` is set: `len - 1` shrinking
bubble passes. -/
def bubbleSort (l : List (List Nat)) : List (List Nat) := bubbleAux (l.length - 1) l

/-- The key-collection loop (lines 376-387): every key must be a string,
checked before anything of the dict body is emitted. -/
def collectKeys : List (HValue × HValue) → Except EncErr (List (List Nat))
  | [] => .ok []
  | (k, _) :: rest =>
    match k with
    | .vstr t => (collectKeys rest).map (t :: ·)
    | _ => .error .keysMustBeStrings

/-- `mp_obj_dict_get` for the string keys collected from the same dict. -/
def lookupPair : List (HValue × HValue) → List Nat → Option HValue
  | [], _ => none
  | (k', v') :: rest, k =>
    match k' with
    | .vstr t => if t = k then some v' else lookupPair rest k
    | _ => lookupPair rest k

/-- The element separators of the container loops (lines 352-361 and
403-412): a comma (plus a space only in compact mode) before each element
after the first, then the indent-mode newline and spaces at
`level + 1`. -/
def sepJoin (indent level : Nat) : Bool → List (List Nat) → List Nat
  | _, [] => []
  | first, p :: ps =>
    ((if first then [] else 44 :: (if indent = 0 then [32] else [])) ++
      addIndent indent (level + 1) ++ p) ++ sepJoin indent level false ps

/-- Assembled array output: brackets around the joined elements, with the
closing indent only for a non-empty array in indent mode (lines 364-366). -/
def arrOut (indent level : Nat) (parts : List (List Nat)) : List Nat :=
  91 :: (sepJoin indent level true parts ++
    (match parts with
     | [] => []
     | _ :: _ => addIndent indent level) ++ [93])

/-- Assembled non-empty dict output (the `len > 0` body of lines
374-430). -/
def objOut (indent level : Nat) (parts : List (List Nat)) : List Nat :=
  123 :: (sepJoin indent level true parts ++ addIndent indent level ++ [125])

/-- The serializer's iteration over a container's elements: emit in order,
stopping at the first failure (in the C code the first `mp_raise_*` aborts
the whole `serialize_obj` call). -/
def mapME {α β ε : Type} (f : α → Except ε β) : List α → Except ε (List β)
  | [] => .ok []
  | a :: t =>
    match f a with
    | .error e => .error e
    | .ok b => (mapME f t).map (b :: ·)

/-- `serialize_obj` (lines 320-437), fuelled by value depth: literals and
leaves directly, the `mp_obj_get_int` machine-word conversion (which raises
`OverflowError` when the int does not fit `mp_int_t`, width `W`) before
`%ld` printing for ints, `[`…`]` around recursively serialized elements for
lists and tuples, and for dicts the key collection/validation, the optional
key sort, and the `"key": value` pairs via dict lookup. -/
def ser : Nat → Nat → HValue → Nat → Nat → Bool → Except EncErr (List Nat)
  | _, 0, _, _, _, _ => .error .outOfFuel
  | W, fuel + 1, v, indent, level, sortKeys =>
    match v with
    | .vnone => .ok [110, 117, 108, 108]
    | .vbool true => .ok [116, 114, 117, 101]
    | .vbool false => .ok [102, 97, 108, 115, 101]
    | .vstr t => .ok (escapeString t)
    | .vint n => if fitsWord W n then .ok (intDec n) else .error .overflow
    | .vfloat f =>
      if f.isinf || f.isnan then .error .floatOutOfRange else .ok f.fmt
    | .vlist items =>
      (mapME (fun w => ser W fuel w indent (level + 1) sortKeys) items).map
        (arrOut indent level)
    | .vtuple items =>
      (mapME (fun w => ser W fuel w indent (level + 1) sortKeys) items).map
        (arrOut indent level)
    | .vdict pairs =>
      match pairs with
      | [] => .ok [123, 125]
      | _ :: _ => do
        let keys ← collectKeys pairs
        let keys1 := if sortKeys then bubbleSort keys else keys
        let parts ← mapME (fun k =>
          match lookupPair pairs k with
          | some w =>
            (ser W fuel w indent (level + 1) sortKeys).map
              fun sv => escapeString k ++ [58, 32] ++ sv
          | none => .error .keyMissing) keys1
        .ok (objOut indent level parts)
    | .vother => .error .notSerializable

/-- `json.dumps(obj, indent=…, sort_keys=…)` (lines 440-466): `indent=None`
and negative indents collapse to compact mode.  `W` is the host machine-word
width; the fuel argument is an artefact of the model; any bound on the depth
of `v` (which the caller that built `v` controls, spec §5) makes it
exact. -/
def jsonDumps (W fuel : Nat) (v : HValue) (indentArg : Option Int) (sortKeys : Bool) :
    Except EncErr (List Nat) :=
  let indent : Nat := match indentArg with
    | none => 0
    | some i => if i < 0 then 0 else i.toNat
  ser W fuel v indent 0 sortKeys

/-- The `n+1`-deep nested array: `deepArr 0` is `[]`, `deepArr (n+1)` is the
array containing `deepArr n`. -/
def deepArr : Nat → HValue
  | 0 => .vlist []
  | n + 1 => .vlist [deepArr n]

/-- Wrap a value in `m` singleton arrays, innermost first — the shape the
closing phase of the decoder loop produces. -/
def iterWrap : Nat → HValue → HValue
  | 0, v => v
  | m + 1, v => iterWrap m (.vlist [v])

/-- The non-strict order induced by `key_compare`. -/
def keyLe (a b : List Nat) : Prop := keyCompare a b ≤ 0

/-- The byte content of a string value (the identity on the keys
`collectKeys` accepts). -/
def strBytes : HValue → List Nat
  | .vstr t => t
  | _ => []

/-- The spec's supported variant set for encoding: no NaN/Infinity floats,
string keys for every object, no foreign objects — recursively. -/
inductive JsonOk : HValue → Prop
  | vnone : JsonOk .vnone
  | vbool (b : Bool) : JsonOk (.vbool b)
  | vint (n : Int) : JsonOk (.vint n)
  | vstr (t : List Nat) : JsonOk (.vstr t)
  | vfloat (f : MpFloat) (h1 : f.isinf = false) (h2 : f.isnan = false) : JsonOk (.vfloat f)
  | vlist (items : List HValue) (h : ∀ v ∈ items, JsonOk v) : JsonOk (.vlist items)
  | vtuple (items : List HValue) (h : ∀ v ∈ items, JsonOk v) : JsonOk (.vtuple items)
  | vdict (pairs : List (HValue × HValue))
      (hk : ∀ p ∈ pairs, ∃ t, (p : HValue × HValue).1 = .vstr t)
      (hv : ∀ p ∈ pairs, JsonOk (p : HValue × HValue).2) : JsonOk (.vdict pairs)

/-- The host-dict invariant: every dict in the value has duplicate-free
keys (a real `mp_map` cannot hold the same key twice). -/
inductive NKeys : HValue → Prop
  | vnone : NKeys .vnone
  | vbool (b : Bool) : NKeys (.vbool b)
  | vint (n : Int) : NKeys (.vint n)
  | vstr (t : List Nat) : NKeys (.vstr t)
  | vfloat (f : MpFloat) : NKeys (.vfloat f)
  | vother : NKeys .vother
  | vlist (items : List HValue) (h : ∀ v ∈ items, NKeys v) : NKeys (.vlist items)
  | vtuple (items : List HValue) (h : ∀ v ∈ items, NKeys v) : NKeys (.vtuple items)
  | vdict (pairs : List (HValue × HValue))
      (hnd : (pairs.map fun p => strBytes (p : HValue × HValue).1).Nodup)
      (h : ∀ p ∈ pairs, NKeys (p : HValue × HValue).2) : NKeys (.vdict pairs)

/-- Every integer reachable by the serializer's value traversal (including
through list, tuple and dict-value positions) fits the `mp_int_t` machine
word of width `W` — the condition under which `mp_obj_get_int` never raises
`OverflowError` during serialization. -/
inductive IntsFit (W : Nat) : HValue → Prop
  | vnone : IntsFit W .vnone
  | vbool (b : Bool) : IntsFit W (.vbool b)
  | vint (n : Int) (h : fitsWord W n = true) : IntsFit W (.vint n)
  | vstr (t : List Nat) : IntsFit W (.vstr t)
  | vfloat (f : MpFloat) : IntsFit W (.vfloat f)
  | vlist (items : List HValue) (h : ∀ v ∈ items, IntsFit W v) : IntsFit W (.vlist items)
  | vtuple (items : List HValue) (h : ∀ v ∈ items, IntsFit W v) : IntsFit W (.vtuple items)
  | vdict (pairs : List (HValue × HValue))
      (h : ∀ p ∈ pairs, IntsFit W (p : HValue × HValue).2) : IntsFit W (.vdict pairs)

/-- Elements joined by a separator — the building block of the spec's
separator wording (spec §4.2), deliberately written from the spec, not from
the code. -/
def specSeq (sep : List Nat) : List (List Nat) → List Nat
  | [] => []
  | [p] => p
  | p :: q :: ps => p ++ sep ++ specSeq sep (q :: ps)

/-- Modelled from the spec: compact-mode array — elements separated by
`", "` inside brackets. -/
def specCompactArr (parts : List (List Nat)) : List Nat :=
  91 :: (specSeq [44, 32] parts ++ [93])

/-- Modelled from the spec: compact-mode object — `"key": value` parts
separated by `", "` inside braces. -/
def specCompactObj (parts : List (List Nat)) : List Nat :=
  123 :: (specSeq [44, 32] parts ++ [125])

/-- Modelled from the spec: indent-mode array — each element at nesting
level `level + 1` preceded by a newline and `k * (level + 1)` spaces,
elements separated by commas, the closing bracket preceded by a newline and
`k * level` spaces; an empty array has no internal newlines. -/
def specIndentArr (k level : Nat) (parts : List (List Nat)) : List Nat :=
  match parts with
  | [] => [91, 93]
  | _ :: _ =>
    91 :: (specSeq [44] (parts.map fun p => 10 :: (List.replicate (k * (level + 1)) 32 ++ p)) ++
      (10 :: (List.replicate (k * level) 32 ++ [93])))

/-- Modelled from the spec: indent-mode non-empty object, shaped like
`specIndentArr` with braces. -/
def specIndentObj (k level : Nat) (parts : List (List Nat)) : List Nat :=
  123 :: (specSeq [44] (parts.map fun p => 10 :: (List.replicate (k * (level + 1)) 32 ++ p)) ++
    (10 :: (List.replicate (k * level) 32 ++ [125])))

/-! ## Sanity examples -/

example : jsonLoads (asciiBytes "null") = .ok .vnone := by rfl
example : jsonLoads (asciiBytes "true") = .ok (.vbool true) := by rfl
example : jsonLoads (asciiBytes "false") = .ok (.vbool false) := by rfl
example : jsonLoads (asciiBytes "[1, 2, 3]") = .ok (.vlist [.vint 1, .vint 2, .vint 3]) := by rfl
example : jsonLoads (asciiBytes "\x7b\"a\": 1, \"b\": [2, 3]\x7d") =
    .ok (.vdict [(.vstr [97], .vint 1), (.vstr [98], .vlist [.vint 2, .vint 3])]) := by rfl
example : jsonLoads (asciiBytes "\"\\u0041\"") = .ok (.vstr [65]) := by rfl
example : jsonLoads (asciiBytes "") = .error .decodeError := by rfl
example : jsonLoads (asciiBytes "[1, 2") = .error .decodeError := by rfl
example : jsonLoads (asciiBytes "true false") = .error .decodeError := by rfl
example : jsonLoads (asciiBytes "[1\x7d") = .ok (.vlist [.vint 1]) := by rfl
example : jsonLoads (asciiBytes "\x7b1: 2\x7d") = .ok (.vdict [(.vint 1, .vint 2)]) := by rfl
example : jsonLoads (asciiBytes "\"\\q\"") = .ok (.vstr [113]) := by rfl
example : jsonLoads (asciiBytes "1.5") = .ok (.vfloat ⟨false, false, asciiBytes "1.5"⟩) := by rfl

example : jsonDumps 64 9 (.vlist [.vint 1, .vint 2]) (some 2) false =
    .ok (asciiBytes "[\n  1,\n  2\n]") := by rfl
example : jsonDumps 64 9 (.vdict [(.vstr [98], .vint 1), (.vstr [97], .vint 2)]) none true =
    .ok (asciiBytes "\x7b\"a\": 2, \"b\": 1\x7d") := by rfl
example : jsonDumps 64 9 (.vfloat ⟨true, false, []⟩) none false = .error .floatOutOfRange := by rfl
example : jsonDumps 64 9 (.vdict [(.vint 1, .vnone)]) none false =
    .error .keysMustBeStrings := by rfl
example : jsonDumps 64 9 .vother none false = .error .notSerializable := by rfl
example : jsonDumps 64 9 (.vlist []) (some 2) false = .ok (asciiBytes "[]") := by rfl
example : jsonDumps 64 9 (.vdict []) (some 2) false = .ok (asciiBytes "\x7b\x7d") := by rfl
example : jsonDumps 64 9 (.vint (-17)) none false = .ok (asciiBytes "-17") := by rfl
example : jsonDumps 64 9 (.vint (10 ^ 19)) none false = .error .overflow := by rfl
example : jsonDumps 32 9 (.vint (2 ^ 31)) none false = .error .overflow := by rfl
example : jsonDumps 32 9 (.vint (-(2 ^ 31))) none false = .ok (asciiBytes "-2147483648") := by
  rfl
example : jsonDumps 64 9 (.vstr [97, 10, 1]) none false =
    .ok (asciiBytes "\"a\\n\\u0001\"") := by rfl

/-! ## Theorems -/

/-- C10: the decoder never checks that a closing bracket's type matches the
container it closes — `]` and `}` are processed by one shared case that
simply closes the current open container (`'[1}'` yields the array `[1]`,
`'{"a": 1]'` yields the object `{a: 1}`), and only a closer arriving with no
open container at all is a decode error. -/
theorem c10_close_ignores_bracket_type :
    jsonLoads (asciiBytes "[1\x7d") = .ok (.vlist [.vint 1]) ∧
    jsonLoads (asciiBytes "\x7b\"a\": 1]") = .ok (.vdict [(.vstr [97], .vint 1)]) ∧
    jsonLoads (asciiBytes "]") = .error .decodeError ∧
    jsonLoads (asciiBytes "\x7d") = .error .decodeError ∧
    ∀ fuel r top stk key,
      decLoop (fuel + 1) ⟨93, r⟩ top stk key = decLoop (fuel + 1) ⟨125, r⟩ top stk key := by
  refine ⟨by rfl, by rfl, by rfl, by rfl, ?_⟩
  intro fuel r top stk key
  rfl

/-- C2 counterexample: decoding `'{1: 2}'` does not fail — it succeeds and
stores the integer key `1` in the decoded object. -/
theorem c2_counterexample :
    jsonLoads (asciiBytes "\x7b1: 2\x7d") = .ok (.vdict [(.vint 1, .vint 2)]) := by rfl

/-- C2 amended: a non-string value in object-key position is rejected only
when it is a container opener (`[` or `{`); any leaf value (integer, float,
string, literal) is accepted as the pending key and stored into the decoded
object. -/
theorem c2_amended_leaf_keys_accepted :
    jsonLoads (asciiBytes "\x7b1: 2\x7d") = .ok (.vdict [(.vint 1, .vint 2)]) ∧
    jsonLoads (asciiBytes "\x7btrue: 2\x7d") = .ok (.vdict [(.vbool true, .vint 2)]) ∧
    jsonLoads (asciiBytes "\x7b[]: 1\x7d") = .error .decodeError ∧
    jsonLoads (asciiBytes "\x7b\x7b\x7d: 1\x7d") = .error .decodeError ∧
    (∀ pairs stk, attachStep (some (.objF pairs)) stk none .openArr = .fail) ∧
    (∀ pairs stk, attachStep (some (.objF pairs)) stk none .openObj = .fail) ∧
    (∀ pairs stk key v,
      attachStep (some (.objF pairs)) stk (some key) (.val v) =
        .cont (some (.objF (dictStore pairs key v))) stk none) := by
  exact ⟨by rfl, by rfl, by rfl, by rfl, fun _ _ => rfl, fun _ _ => rfl,
    fun _ _ _ _ => rfl⟩

/-- C3 counterexample: the escape `\q` is outside the recognized set, yet
decoding `'"\q"'` succeeds and produces the string `"q"` instead of failing
with a DecodeError. -/
theorem c3_counterexample :
    jsonLoads (asciiBytes "\"\\q\"") = .ok (.vstr [113]) := by rfl

/-- C3 amended: an escape outside `\b \f \n \r \t \u` keeps the escaped byte
verbatim (which is also how `\"`, `\\` and `\/` work); `\u` consumes the
next four bytes unconditionally, mapping them through unvalidated
hex-arithmetic, so non-hex digits silently produce a garbled code point; the
only string failure is end of input before the closing quote — in
particular a `\u` escape cut off by end of input. -/
theorem c3_amended_escape_passthrough :
    (∀ fuel acc c r, ¬(c = 98 ∨ c = 102 ∨ c = 110 ∨ c = 114 ∨ c = 116 ∨ c = 117) →
      scanStr (fuel + 1) acc ⟨92, c :: r⟩ = scanStr fuel (acc ++ [c]) (JStream.adv ⟨c, r⟩)) ∧
    jsonLoads (asciiBytes "\"\\q\"") = .ok (.vstr [113]) ∧
    jsonLoads (asciiBytes "\"\\uzzzz\"") = .ok (.vstr [240, 163, 140, 179]) ∧
    jsonLoads (asciiBytes "\"\\u12") = .error .decodeError ∧
    jsonLoads (asciiBytes "\"abc") = .error .decodeError := by
  refine ⟨?_, by rfl, by rfl, by rfl, by rfl⟩
  intro fuel acc c r h
  push_neg at h
  obtain ⟨h1, h2, h3, h4, h5, h6⟩ := h
  simp [scanStr, JStream.adv, h1, h2, h3, h4, h5, h6]

/-- Witness for the hypothesis of `c3_amended_escape_passthrough`: the
passthrough equation at the concrete escape `\q`. -/
theorem c3_amended_escape_passthrough_witness :
    scanStr 4 [] ⟨92, [113, 34]⟩ = scanStr 3 [113] (JStream.adv ⟨113, [34]⟩) :=
  c3_amended_escape_passthrough.1 3 [] 113 [34] (by decide)

/-- C8: decode fails on empty input, on premature end of input inside an
unfinished value, and on trailing non-whitespace after the first complete
value; it succeeds exactly when the dispatch loop completes a value with an
empty container stack and skipping whitespace from the loop's final stream
position reaches end of input. -/
theorem c8_empty_premature_trailing :
    jsonLoads [] = .error .decodeError ∧
    jsonLoads (asciiBytes "[1, 2") = .error .decodeError ∧
    jsonLoads (asciiBytes "true false") = .error .decodeError ∧
    jsonLoads (asciiBytes "true  ") = .ok (.vbool true) ∧
    (∀ bs v, jsonLoads bs = .ok v ↔
      ∃ s, decLoop (bs.length + 2) (JStream.adv ⟨0, bs⟩) none [] none = .ok (v, [], s) ∧
        (skipWs (s.rest.length + 1) s).cur = 0) := by
  refine ⟨by rfl, by rfl, by rfl, by rfl, ?_⟩
  intro bs v
  unfold jsonLoads
  cases h : decLoop (bs.length + 2) (JStream.adv ⟨0, bs⟩) none [] none with
  | error e => simp
  | ok triple =>
    obtain ⟨v', stk, s⟩ := triple
    by_cases hw : (skipWs (s.rest.length + 1) s).cur = 0
    · cases stk with
      | nil =>
        simp only [hw, if_true]
        constructor
        · rintro ⟨⟩
          exact ⟨s, rfl, hw⟩
        · rintro ⟨s', hs', _⟩
          cases hs'
          rfl
      | cons f fs =>
        simp only [hw, if_true]
        constructor
        · rintro ⟨⟩
        · rintro ⟨s', hs', _⟩
          cases hs'
    · simp only [hw, if_false]
      constructor
      · rintro ⟨⟩
      · rintro ⟨s', hs', hw'⟩
        cases hs'
        exact absurd hw' hw

lemma iterWrap_deepArr : ∀ m k, iterWrap m (deepArr k) = deepArr (m + k)
  | 0, _ => by simp [iterWrap]
  | m + 1, k => by
    show iterWrap m (.vlist [deepArr k]) = _
    have h := iterWrap_deepArr m (k + 1)
    rw [show m + 1 + k = m + (k + 1) by omega]
    exact h

lemma decLoop_open_top (fuel : Nat) (r : List Nat) (stk : List PFrame)
    (key : Option HValue) :
    decLoop (fuel + 1) ⟨91, r⟩ none stk key =
      decLoop fuel (JStream.adv ⟨91, r⟩) (some (.arrF [])) stk key := rfl

lemma decLoop_open_arr (fuel : Nat) (r : List Nat) (items : List HValue)
    (stk : List PFrame) (key : Option HValue) :
    decLoop (fuel + 1) ⟨91, r⟩ (some (.arrF items)) stk key =
      decLoop fuel (JStream.adv ⟨91, r⟩) (some (.arrF [])) (.arrP items :: stk) key := rfl

lemma decLoop_close_pop (fuel : Nat) (r : List Nat) (t : Frame) (fr : PFrame)
    (stk : List PFrame) (key : Option HValue) :
    decLoop (fuel + 1) ⟨93, r⟩ (some t) (fr :: stk) key =
      decLoop fuel (JStream.adv ⟨93, r⟩) (some (fr.fold t.close)) stk key := rfl

lemma decLoop_close_last (fuel : Nat) (r : List Nat) (t : Frame) (key : Option HValue) :
    decLoop (fuel + 1) ⟨93, r⟩ (some t) [] key =
      .ok (t.close, [], JStream.adv ⟨93, r⟩) := rfl

/-- Opening phase of a run of `[` bytes: each one pushes an `arrP []`
parent frame. -/
lemma decLoop_open_phase (f : Nat) (cl : List Nat) :
    ∀ (m : Nat) (stk : List PFrame),
    decLoop (m + (f + 1)) ⟨91, List.replicate m 91 ++ 93 :: cl⟩ (some (.arrF [])) stk none =
      decLoop f ⟨93, cl⟩ (some (.arrF [])) (List.replicate (m + 1) (PFrame.arrP []) ++ stk)
        none := by
  intro m
  induction m with
  | zero =>
    intro stk
    rw [show 0 + (f + 1) = f + 1 by omega]
    simp only [List.replicate, List.nil_append]
    rw [decLoop_open_arr]
    simp [JStream.adv]
  | succ m ih =>
    intro stk
    rw [show m + 1 + (f + 1) = m + (f + 1) + 1 by omega, List.replicate_succ,
      List.cons_append, decLoop_open_arr]
    simp only [JStream.adv]
    rw [ih (PFrame.arrP [] :: stk)]
    congr 1
    rw [List.replicate_succ' (m + 1)]
    simp [List.append_assoc]

/-- Closing phase of a run of `]` bytes over a stack of `arrP []` frames:
each closer folds the current array into its parent. -/
lemma decLoop_close_phase (f : Nat) :
    ∀ (m : Nat) (t : Frame),
    decLoop (m + (f + 1)) ⟨93, List.replicate m 93⟩ (some t)
        (List.replicate m (PFrame.arrP [])) none =
      .ok (iterWrap m t.close, [], ⟨0, []⟩) := by
  intro m
  induction m with
  | zero =>
    intro t
    rw [show 0 + (f + 1) = f + 1 by omega]
    simp only [List.replicate]
    rw [decLoop_close_last]
    simp [JStream.adv, iterWrap]
  | succ m ih =>
    intro t
    rw [show m + 1 + (f + 1) = m + (f + 1) + 1 by omega, List.replicate_succ,
      List.replicate_succ, decLoop_close_pop]
    simp only [JStream.adv]
    have h := ih (.arrF [t.close])
    simp only [PFrame.fold, Frame.close, List.nil_append] at h ⊢
    rw [h]
    rfl

/-- C5: for every nesting depth `n ≥ 1`, decoding `n` `[` bytes followed by
`n` `]` bytes succeeds and yields the `n`-deep nested array.  The loop is
the faithful model of the C decoder: a single dispatch loop over an
explicit container stack (`decLoop`'s `stk` list), with no recursion on the
nesting structure. -/
theorem c5_deep_nesting (n : Nat) (h : 1 ≤ n) :
    jsonLoads (List.replicate n 91 ++ List.replicate n 93) = .ok (deepArr (n - 1)) := by
  obtain ⟨m, rfl⟩ : ∃ m, n = m + 1 := ⟨n - 1, by omega⟩
  cases m with
  | zero => rfl
  | succ m' =>
    unfold jsonLoads
    have hlen : (List.replicate (m' + 2) 91 ++ List.replicate (m' + 2) 93).length + 2 =
        (2 * m' + 5) + 1 := by
      simp [List.length_append, List.length_replicate]
      omega
    rw [hlen]
    have hbs : List.replicate (m' + 2) 91 ++ List.replicate (m' + 2) 93 =
        91 :: (91 :: (List.replicate m' 91 ++ 93 :: List.replicate (m' + 1) 93)) := rfl
    rw [hbs]
    simp only [JStream.adv]
    rw [decLoop_open_top]
    simp only [JStream.adv]
    rw [show 2 * m' + 5 = m' + (m' + 4 + 1) by omega,
      decLoop_open_phase (m' + 4) (List.replicate (m' + 1) 93) m' []]
    rw [List.append_nil]
    rw [show m' + 4 = (m' + 1) + (2 + 1) by omega,
      decLoop_close_phase 2 (m' + 1) (.arrF [])]
    simp only [Frame.close]
    have hv : iterWrap (m' + 1) (.vlist []) = deepArr (m' + 1) := by
      have := iterWrap_deepArr (m' + 1) 0
      simpa [deepArr] using this
    simp [skipWs, isSpaceB, hv]

/-- Witness for `c5_deep_nesting` at depth 3. -/
theorem c5_deep_nesting_witness :
    jsonLoads (List.replicate 3 91 ++ List.replicate 3 93) = .ok (deepArr 2) :=
  c5_deep_nesting 3 (by decide)

/-- The number scanner appends everything after the given accumulator, and
the first appended byte is the already-consumed first byte. -/
lemma scanNum_shape : ∀ (fuel : Nat) (acc : List Nat) (cur : Nat) (flt : Bool) (s : JStream),
    ∃ t, (scanNum fuel acc cur flt s).1 = acc ++ cur :: t := by
  intro fuel
  induction fuel with
  | zero => intro acc cur flt s; exact ⟨[], rfl⟩
  | succ fuel ih =>
    intro acc cur flt s
    simp only [scanNum]
    by_cases h1 : s.cur = 46 ∨ s.cur = 69 ∨ s.cur = 101
    · rw [if_pos h1]
      obtain ⟨t, ht⟩ := ih (acc ++ [cur]) s.cur true s.adv
      exact ⟨s.cur :: t, by simpa [List.append_assoc] using ht⟩
    · rw [if_neg h1]
      by_cases h2 : s.cur = 43 ∨ s.cur = 45 ∨ (48 ≤ s.cur ∧ s.cur ≤ 57)
      · rw [if_pos h2]
        obtain ⟨t, ht⟩ := ih (acc ++ [cur]) s.cur flt s.adv
        exact ⟨s.cur :: t, by simpa [List.append_assoc] using ht⟩
      · rw [if_neg h2]
        exact ⟨[], rfl⟩

/-- The float flag produced by the number scanner equals: the incoming flag,
or some byte consumed after the first one is `.`, `E` or `e`. -/
lemma scanNum_flt_eq : ∀ (fuel : Nat) (acc : List Nat) (cur : Nat) (flt : Bool) (s : JStream),
    (scanNum fuel acc cur flt s).2.1 =
      (flt || ((scanNum fuel acc cur flt s).1.drop (acc.length + 1)).any
        fun c => c == 46 || c == 69 || c == 101) := by
  intro fuel
  induction fuel with
  | zero =>
    intro acc cur flt s
    show flt = (flt || ((acc ++ [cur]).drop (acc.length + 1)).any _)
    have : (acc ++ [cur]).drop (acc.length + 1) = [] := by
      rw [show acc ++ [cur] = (acc ++ [cur]) ++ [] by simp]
      rw [show acc.length + 1 = (acc ++ [cur]).length by simp]
      exact List.drop_left _ _
    simp [this]
  | succ fuel ih =>
    intro acc cur flt s
    simp only [scanNum]
    by_cases h1 : s.cur = 46 ∨ s.cur = 69 ∨ s.cur = 101
    · rw [if_pos h1]
      obtain ⟨t, ht⟩ := scanNum_shape fuel (acc ++ [cur]) s.cur true s.adv
      have hdrop : ((scanNum fuel (acc ++ [cur]) s.cur true s.adv).1.drop (acc.length + 1)) =
          s.cur :: t := by
        rw [ht, show acc.length + 1 = (acc ++ [cur]).length by simp]
        exact List.drop_left _ _
      have hflt := ih (acc ++ [cur]) s.cur true s.adv
      rw [hflt, hdrop]
      have hcur : (s.cur == 46 || s.cur == 69 || s.cur == 101) = true := by
        rcases h1 with h | h | h <;> simp [h]
      simp [hcur]
    · rw [if_neg h1]
      by_cases h2 : s.cur = 43 ∨ s.cur = 45 ∨ (48 ≤ s.cur ∧ s.cur ≤ 57)
      · rw [if_pos h2]
        obtain ⟨t, ht⟩ := scanNum_shape fuel (acc ++ [cur]) s.cur flt s.adv
        have hlem := ih (acc ++ [cur]) s.cur flt s.adv
        have hdrop1 : ((scanNum fuel (acc ++ [cur]) s.cur flt s.adv).1.drop
            ((acc ++ [cur]).length + 1)) = t := by
          rw [ht, show (acc ++ [cur]) ++ s.cur :: t = ((acc ++ [cur]) ++ [s.cur]) ++ t by simp,
            show (acc ++ [cur]).length + 1 = ((acc ++ [cur]) ++ [s.cur]).length by simp]
          exact List.drop_left _ _
        have hdrop2 : ((scanNum fuel (acc ++ [cur]) s.cur flt s.adv).1.drop
            (acc.length + 1)) = s.cur :: t := by
          rw [ht, show acc.length + 1 = (acc ++ [cur]).length by simp]
          exact List.drop_left _ _
        rw [hlem, hdrop1, hdrop2]
        have hcur : (s.cur == 46 || s.cur == 69 || s.cur == 101) = false := by
          rcases h2 with h | h | h
          · simp [h]
          · simp [h]
          · have e1 : s.cur ≠ 46 := by omega
            have e2 : s.cur ≠ 69 := by omega
            have e3 : s.cur ≠ 101 := by omega
            simp [e1, e2, e3]
        simp [hcur]
      · rw [if_neg h2]
        show flt = (flt || ((acc ++ [cur]).drop (acc.length + 1)).any _)
        have : (acc ++ [cur]).drop (acc.length + 1) = [] := by
          rw [show acc ++ [cur] = (acc ++ [cur]) ++ [] by simp]
          rw [show acc.length + 1 = (acc ++ [cur]).length by simp]
          exact List.drop_left _ _
        simp [this]

/-- C7: a numeric literal produces a float exactly when the accumulated
literal contains a `.`, `e` or `E` byte — never because of its magnitude
(an arbitrarily long digit string still decodes as an integer). -/
theorem c7_float_iff_dot_exp :
    (∀ fuel first s, (first = 45 ∨ (48 ≤ first ∧ first ≤ 57)) →
      ((scanNum fuel [] first false s).2.1 = true ↔
        ∃ c ∈ (scanNum fuel [] first false s).1, (c = 46 ∨ c = 69 ∨ c = 101))) ∧
    jsonLoads (asciiBytes "123") = .ok (.vint 123) ∧
    jsonLoads (asciiBytes "99999999999999999999999999999999999999") =
      .ok (.vint 99999999999999999999999999999999999999) ∧
    jsonLoads (asciiBytes "1.5") = .ok (.vfloat ⟨false, false, asciiBytes "1.5"⟩) ∧
    jsonLoads (asciiBytes "1e5") = .ok (.vfloat ⟨false, false, asciiBytes "1e5"⟩) ∧
    jsonLoads (asciiBytes "1E5") = .ok (.vfloat ⟨false, false, asciiBytes "1E5"⟩) ∧
    jsonLoads (asciiBytes "-0.5e-10") =
      .ok (.vfloat ⟨false, false, asciiBytes "-0.5e-10"⟩) := by
  refine ⟨?_, by rfl, by rfl, by rfl, by rfl, by rfl, by rfl⟩
  intro fuel first s h
  have h1 : ¬(first = 46 ∨ first = 69 ∨ first = 101) := by rcases h with h | h <;> omega
  obtain ⟨t, ht⟩ := scanNum_shape fuel [] first false s
  rw [scanNum_flt_eq, ht]
  simp only [List.nil_append, List.length_nil, Nat.zero_add, List.drop_succ_cons,
    List.drop_zero, Bool.false_or]
  constructor
  · intro hany
    rw [List.any_eq_true] at hany
    obtain ⟨c, hc, hp⟩ := hany
    refine ⟨c, List.mem_cons_of_mem _ hc, ?_⟩
    simpa [or_assoc] using hp
  · rintro ⟨c, hc, hp⟩
    rcases List.mem_cons.mp hc with rfl | hc'
    · exact absurd hp h1
    · rw [List.any_eq_true]
      exact ⟨c, hc', by simpa [or_assoc] using hp⟩

/-- Witness for the hypothesis of `c7_float_iff_dot_exp`: the literal `1.5`
starts with the digit `1`. -/
theorem c7_float_iff_dot_exp_witness :
    (scanNum 3 [] 49 false ⟨46, [53]⟩).2.1 = true ↔
      ∃ c ∈ (scanNum 3 [] 49 false ⟨46, [53]⟩).1, (c = 46 ∨ c = 69 ∨ c = 101) :=
  c7_float_iff_dot_exp.1 3 49 ⟨46, [53]⟩ (by decide)

/-! ## The `key_compare` order and the bubble sort -/

lemma keyCompare_nil_le : ∀ b : List Nat, keyCompare [] b ≤ 0
  | [] => by simp [keyCompare]
  | _ :: bs => by simp [keyCompare]; omega

lemma keyCompare_swap : ∀ a b : List Nat, keyCompare a b = -keyCompare b a
  | [], [] => by simp [keyCompare]
  | [], _ :: _ => by simp [keyCompare]
  | _ :: _, [] => by simp [keyCompare]
  | a :: as, b :: bs => by
    by_cases h : a = b
    · subst h
      simp [keyCompare, keyCompare_swap as bs]
    · have h' : b ≠ a := fun e => h e.symm
      simp only [keyCompare, if_neg h, if_neg h']
      omega

lemma keyCompare_eq_zero_iff : ∀ a b : List Nat, keyCompare a b = 0 ↔ a = b
  | [], [] => by simp [keyCompare]
  | [], b :: bs => by
    simp only [keyCompare]
    constructor
    · intro h; omega
    · intro h; simp at h
  | a :: as, [] => by
    simp only [keyCompare]
    constructor
    · intro h; omega
    · intro h; simp at h
  | a :: as, b :: bs => by
    by_cases h : a = b
    · subst h
      simp [keyCompare, keyCompare_eq_zero_iff as bs]
    · have h' : (a : Int) - b ≠ 0 := by omega
      simp [keyCompare, h, h']

lemma keyLe_refl (a : List Nat) : keyLe a a := by
  unfold keyLe
  rw [(keyCompare_eq_zero_iff a a).mpr rfl]

lemma keyLe_total (a b : List Nat) : keyLe a b ∨ keyLe b a := by
  unfold keyLe
  rw [keyCompare_swap a b]
  omega

lemma keyLe_of_not_gt {a b : List Nat} (h : ¬0 < keyCompare a b) : keyLe a b := by
  unfold keyLe; omega

lemma keyLe_of_gt {a b : List Nat} (h : 0 < keyCompare a b) : keyLe b a := by
  unfold keyLe
  rw [keyCompare_swap b a]
  omega

lemma keyLe_antisymm {a b : List Nat} (h1 : keyLe a b) (h2 : keyLe b a) : a = b := by
  unfold keyLe at h1 h2
  rw [keyCompare_swap b a] at h2
  exact (keyCompare_eq_zero_iff a b).mp (by omega)

lemma keyLe_trans : ∀ a b c : List Nat, keyLe a b → keyLe b c → keyLe a c
  | [], b, c, _, _ => keyCompare_nil_le c
  | a :: as, [], c, hab, _ => by
    exfalso
    unfold keyLe at hab
    simp only [keyCompare] at hab
    omega
  | a :: as, b :: bs, [], _, hbc => by
    exfalso
    unfold keyLe at hbc
    simp only [keyCompare] at hbc
    omega
  | a :: as, b :: bs, c :: cs, hab, hbc => by
    unfold keyLe at hab hbc ⊢
    simp only [keyCompare] at hab hbc ⊢
    by_cases h1 : a = b <;> by_cases h2 : b = c
    · subst h1; subst h2
      rw [if_pos rfl]
      rw [if_pos rfl] at hab hbc
      exact keyLe_trans as bs cs hab hbc
    · subst h1
      rw [if_neg h2] at hbc ⊢
      exact hbc
    · subst h2
      rw [if_neg h1] at hab ⊢
      exact hab
    · rw [if_neg h1] at hab
      rw [if_neg h2] at hbc
      have hac : a ≠ c := by omega
      rw [if_neg hac]
      omega

lemma innerPass_perm : ∀ (n : Nat) (l : List (List Nat)), List.Perm (innerPass n l) l := by
  intro n
  induction n with
  | zero => intro l; exact .refl _
  | succ n ih =>
    intro l
    match l with
    | [] => exact .refl _
    | [a] => exact .refl _
    | a :: b :: t =>
      simp only [innerPass]
      by_cases h : 0 < keyCompare a b
      · rw [if_pos h]
        exact ((ih (a :: t)).cons b).trans (List.Perm.swap a b t)
      · rw [if_neg h]
        exact (ih (b :: t)).cons a

lemma innerPass_append : ∀ (n : Nat) (xs suf : List (List Nat)), xs.length = n + 1 →
    innerPass n (xs ++ suf) = innerPass n xs ++ suf := by
  intro n
  induction n with
  | zero => intro xs suf _; simp [innerPass]
  | succ n ih =>
    intro xs suf h
    match xs with
    | [] => simp at h
    | [a] => simp at h
    | a :: b :: t =>
      have hlen1 : (a :: t).length = n + 1 := by simp at h ⊢; omega
      have hlen2 : (b :: t).length = n + 1 := by simp at h ⊢; omega
      simp only [List.cons_append, innerPass]
      by_cases hc : 0 < keyCompare a b
      · rw [if_pos hc, if_pos hc]
        change b :: innerPass n ((a :: t) ++ suf) = b :: innerPass n (a :: t) ++ suf
        rw [ih _ _ hlen1]
        simp
      · rw [if_neg hc, if_neg hc]
        change a :: innerPass n ((b :: t) ++ suf) = a :: innerPass n (b :: t) ++ suf
        rw [ih _ _ hlen2]
        simp

lemma innerPass_last : ∀ (n : Nat) (xs : List (List Nat)), xs.length = n + 1 →
    ∃ ys mx, innerPass n xs = ys ++ [mx] ∧ ∀ y ∈ ys, keyLe y mx := by
  intro n
  induction n with
  | zero =>
    intro xs h
    match xs with
    | [] => simp at h
    | [a] => exact ⟨[], a, rfl, by simp⟩
    | a :: b :: t => simp at h
  | succ n ih =>
    intro xs h
    match xs with
    | [] => simp at h
    | [a] => simp at h
    | a :: b :: t =>
      simp only [innerPass]
      by_cases hc : 0 < keyCompare a b
      · rw [if_pos hc]
        obtain ⟨ys, mx, heq, hb⟩ := ih (a :: t) (by simp at h ⊢; omega)
        refine ⟨b :: ys, mx, by simp [heq], ?_⟩
        intro y hy
        rcases List.mem_cons.mp hy with rfl | hy'
        · have hba : keyLe y a := keyLe_of_gt hc
          have hperm : List.Perm (ys ++ [mx]) (a :: t) := heq ▸ innerPass_perm n (a :: t)
          have ham : keyLe a mx := by
            have ha : a ∈ ys ++ [mx] := hperm.mem_iff.mpr (by simp)
            rcases List.mem_append.mp ha with h' | h'
            · exact hb a h'
            · simp at h'
              subst h'
              exact keyLe_refl _
          exact keyLe_trans _ _ _ hba ham
        · exact hb y hy'
      · rw [if_neg hc]
        obtain ⟨ys, mx, heq, hb⟩ := ih (b :: t) (by simp at h ⊢; omega)
        refine ⟨a :: ys, mx, by simp [heq], ?_⟩
        intro y hy
        rcases List.mem_cons.mp hy with rfl | hy'
        · have hab : keyLe y b := keyLe_of_not_gt hc
          have hperm : List.Perm (ys ++ [mx]) (b :: t) := heq ▸ innerPass_perm n (b :: t)
          have hbm : keyLe b mx := by
            have hbmem : b ∈ ys ++ [mx] := hperm.mem_iff.mpr (by simp)
            rcases List.mem_append.mp hbmem with h' | h'
            · exact hb b h'
            · simp at h'
              subst h'
              exact keyLe_refl _
          exact keyLe_trans _ _ _ hab hbm
        · exact hb y hy'

lemma bubbleAux_perm : ∀ (m : Nat) (l : List (List Nat)), List.Perm (bubbleAux m l) l := by
  intro m
  induction m with
  | zero => intro l; exact .refl _
  | succ m ih =>
    intro l
    exact (ih _).trans (innerPass_perm _ _)

lemma bubbleAux_sorted : ∀ (m : Nat) (pre suf : List (List Nat)),
    pre.length = m + 1 → suf.Pairwise keyLe → (∀ x ∈ pre, ∀ y ∈ suf, keyLe x y) →
    (bubbleAux m (pre ++ suf)).Pairwise keyLe := by
  intro m
  induction m with
  | zero =>
    intro pre suf hlen hsorted hdom
    obtain ⟨a, rfl⟩ := List.length_eq_one.mp hlen
    exact List.Pairwise.cons (fun y hy => hdom a (by simp) y hy) hsorted
  | succ m ih =>
    intro pre suf hlen hsorted hdom
    show (bubbleAux m (innerPass (m + 1) (pre ++ suf))).Pairwise keyLe
    rw [innerPass_append (m + 1) pre suf hlen]
    obtain ⟨ys, mx, heq, hb⟩ := innerPass_last (m + 1) pre hlen
    rw [heq, List.append_assoc]
    have hperm : List.Perm (ys ++ [mx]) pre := heq ▸ innerPass_perm (m + 1) pre
    have hylen : ys.length = m + 1 := by
      have hl := hperm.length_eq
      simp at hl
      omega
    have hmain := ih ys (mx :: suf) hylen ?_ ?_
    · simpa using hmain
    · refine List.Pairwise.cons ?_ hsorted
      intro y hy
      have hmxpre : mx ∈ pre := hperm.subset (by simp)
      exact hdom mx hmxpre y hy
    · intro x hx y hy
      rcases List.mem_cons.mp hy with rfl | hy'
      · exact hb x hx
      · have hxpre : x ∈ pre := hperm.subset (List.mem_append_left _ hx)
        exact hdom x hxpre y hy'

lemma bubbleSort_sorted (l : List (List Nat)) : (bubbleSort l).Pairwise keyLe := by
  match l with
  | [] => simp [bubbleSort, bubbleAux]
  | x :: t =>
    have h := bubbleAux_sorted t.length (x :: t) [] (by simp) (by simp) (by simp)
    simpa [bubbleSort] using h

lemma bubbleSort_perm (l : List (List Nat)) : List.Perm (bubbleSort l) l := bubbleAux_perm _ _
lemma bubbleSort_eq_of_perm {ks ks' : List (List Nat)} (h : List.Perm ks ks') :
    bubbleSort ks = bubbleSort ks' := by
  haveI : IsAntisymm (List Nat) keyLe := ⟨fun _ _ => keyLe_antisymm⟩
  exact List.eq_of_perm_of_sorted
    ((bubbleSort_perm ks).trans (h.trans (bubbleSort_perm ks').symm))
    (bubbleSort_sorted ks) (bubbleSort_sorted ks')

lemma collectKeys_eq_of_str : ∀ (pairs : List (HValue × HValue)),
    (∀ p ∈ pairs, ∃ t, (p : HValue × HValue).1 = .vstr t) →
    collectKeys pairs = .ok (pairs.map fun p => strBytes p.1) := by
  intro pairs
  induction pairs with
  | nil => intro _; rfl
  | cons p rest ih =>
    intro h
    obtain ⟨k, v⟩ := p
    obtain ⟨t, ht⟩ := h (k, v) (by simp)
    simp only at ht
    subst ht
    simp only [collectKeys, List.map_cons]
    rw [ih fun q hq => h q (by simp [hq])]
    rfl

lemma collectKeys_ok_str : ∀ (pairs : List (HValue × HValue)) (ks : List (List Nat)),
    collectKeys pairs = .ok ks →
    (∀ p ∈ pairs, ∃ t, (p : HValue × HValue).1 = .vstr t) ∧
      ks = pairs.map fun p => strBytes p.1 := by
  intro pairs
  induction pairs with
  | nil =>
    intro ks h
    simp only [collectKeys] at h
    cases h
    simp
  | cons p rest ih =>
    intro ks h
    obtain ⟨k, v⟩ := p
    cases k <;> simp only [collectKeys] at h <;> try cases h
    case vstr t =>
      cases hr : collectKeys rest with
      | error e => rw [hr] at h; cases h
      | ok ks' =>
        rw [hr] at h
        cases h
        obtain ⟨h1, h2⟩ := ih ks' hr
        constructor
        · intro q hq
          rcases List.mem_cons.mp hq with rfl | hq'
          · exact ⟨t, rfl⟩
          · exact h1 q hq'
        · simp [strBytes, h2]

lemma lookupPair_iff_mem : ∀ (pairs : List (HValue × HValue)),
    (∀ p ∈ pairs, ∃ t, (p : HValue × HValue).1 = .vstr t) →
    (pairs.map fun p => strBytes p.1).Nodup →
    ∀ k v, (lookupPair pairs k = some v ↔ (HValue.vstr k, v) ∈ pairs) := by
  intro pairs
  induction pairs with
  | nil => intro _ _ k v; simp [lookupPair]
  | cons p rest ih =>
    intro hstr hnd k v
    obtain ⟨k', v'⟩ := p
    obtain ⟨t, ht⟩ := hstr (k', v') (by simp)
    simp only at ht
    subst ht
    rw [List.map_cons, List.nodup_cons] at hnd
    simp only [lookupPair]
    by_cases he : t = k
    · subst he
      rw [if_pos rfl]
      constructor
      · intro hsome
        cases hsome
        exact List.mem_cons_self _ _
      · intro hm
        rcases List.mem_cons.mp hm with he2 | hm'
        · cases he2
          rfl
        · exfalso
          apply hnd.1
          have : strBytes (HValue.vstr t, v).1 = t := rfl
          exact this ▸ List.mem_map_of_mem (fun p => strBytes p.1) hm'
    · rw [if_neg he]
      rw [ih (fun q hq => hstr q (by simp [hq])) hnd.2 k v]
      constructor
      · intro hm; exact List.mem_cons_of_mem _ hm
      · intro hm
        rcases List.mem_cons.mp hm with he2 | hm'
        · exfalso
          apply he
          have := congrArg Prod.fst he2
          simp only at this
          cases this
          rfl
        · exact hm'

lemma lookupPair_eq_of_perm : ∀ (pairs pairs' : List (HValue × HValue)),
    List.Perm pairs pairs' →
    (∀ p ∈ pairs, ∃ t, (p : HValue × HValue).1 = .vstr t) →
    (pairs.map fun p => strBytes p.1).Nodup →
    ∀ k, lookupPair pairs k = lookupPair pairs' k := by
  intro pairs pairs' hp hstr hnd k
  have hstr' : ∀ p ∈ pairs', ∃ t, (p : HValue × HValue).1 = .vstr t :=
    fun p hp' => hstr p (hp.symm.subset hp')
  have hnd' : (pairs'.map fun p => strBytes p.1).Nodup := (hp.map _).nodup_iff.mp hnd
  cases hv : lookupPair pairs k with
  | some v =>
    have hm := (lookupPair_iff_mem pairs hstr hnd k v).mp hv
    exact ((lookupPair_iff_mem pairs' hstr' hnd' k v).mpr (hp.subset hm)).symm
  | none =>
    cases hv' : lookupPair pairs' k with
    | none => rfl
    | some v =>
      have hm := (lookupPair_iff_mem pairs' hstr' hnd' k v).mp hv'
      have hcontra := (lookupPair_iff_mem pairs hstr hnd k v).mpr (hp.symm.subset hm)
      rw [hv] at hcontra
      cases hcontra

/-- Unfolding of the serializer on a non-empty dict whose key collection
succeeds. -/
lemma ser_dict_cons (W fuel : Nat) (p : HValue × HValue) (rest : List (HValue × HValue))
    (indent level : Nat) (sortKeys : Bool) (ks : List (List Nat))
    (hck : collectKeys (p :: rest) = .ok ks) :
    ser W (fuel + 1) (.vdict (p :: rest)) indent level sortKeys =
      (mapME (fun k =>
        match lookupPair (p :: rest) k with
        | some w =>
          (ser W fuel w indent (level + 1) sortKeys).map
            fun sv => escapeString k ++ [58, 32] ++ sv
        | none => .error .keyMissing) (if sortKeys then bubbleSort ks else ks)).map
          (objOut indent level) := by
  simp only [ser, hck]
  rw [show ∀ (f : List (List Nat) → Except EncErr (List Nat)),
    (Except.ok ks >>= f) = f ks from fun _ => rfl]
  cases mapME (fun k =>
      match lookupPair (p :: rest) k with
      | some w =>
        (ser W fuel w indent (level + 1) sortKeys).map
          fun sv => escapeString k ++ [58, 32] ++ sv
      | none => .error .keyMissing) (if sortKeys then bubbleSort ks else ks) <;> rfl

/-- With `sort_keys`, serializing a dict does not depend on the insertion
order of its (string-keyed, duplicate-free) pairs. -/
lemma ser_dict_perm : ∀ (W fuel : Nat) (pairs pairs' : List (HValue × HValue))
    (indent level : Nat),
    List.Perm pairs pairs' →
    (∀ p ∈ pairs, ∃ t, (p : HValue × HValue).1 = .vstr t) →
    (pairs.map fun p => strBytes p.1).Nodup →
    ser W fuel (.vdict pairs) indent level true =
      ser W fuel (.vdict pairs') indent level true := by
  intro W fuel pairs pairs' indent level hp hstr hnd
  cases fuel with
  | zero => rfl
  | succ fuel =>
    cases pairs with
    | nil =>
      have h0 : pairs' = [] := List.Perm.eq_nil hp.symm
      subst h0
      rfl
    | cons p rest =>
      cases pairs' with
      | nil =>
        have := List.Perm.eq_nil hp
        cases this
      | cons q rest' =>
        have hstr' : ∀ x ∈ q :: rest', ∃ t, (x : HValue × HValue).1 = .vstr t :=
          fun x hx => hstr x (hp.symm.subset hx)
        have hck := collectKeys_eq_of_str (p :: rest) hstr
        have hck' := collectKeys_eq_of_str (q :: rest') hstr'
        have hkperm : List.Perm ((p :: rest).map fun x => strBytes x.1)
            ((q :: rest').map fun x => strBytes x.1) := hp.map _
        have hbs := bubbleSort_eq_of_perm hkperm
        have hlook : lookupPair (p :: rest) = lookupPair (q :: rest') :=
          funext (lookupPair_eq_of_perm _ _ hp hstr hnd)
        rw [ser_dict_cons W fuel p rest indent level true _ hck,
          ser_dict_cons W fuel q rest' indent level true _ hck']
        rw [hlook, hbs]
        simp

/-- C6: with `sort_keys=True` an object's pairs are emitted in ascending
byte-wise (`memcmp` with length tiebreak) order of their keys, independently
of insertion order: the concrete example, sortedness of the key sort, its
permutation property, its insertion-order independence, and insertion-order
independence of the whole dict serialization. -/
theorem c6_sort_keys_ascending :
    jsonDumps 64 9 (.vdict [(.vstr [98], .vint 1), (.vstr [97], .vint 2)]) none true =
      .ok (asciiBytes "\x7b\"a\": 2, \"b\": 1\x7d") ∧
    (∀ ks, (bubbleSort ks).Pairwise keyLe) ∧
    (∀ ks, List.Perm (bubbleSort ks) ks) ∧
    (∀ ks ks', List.Perm ks ks' → bubbleSort ks = bubbleSort ks') ∧
    (∀ W fuel pairs pairs' indent level, List.Perm pairs pairs' →
      (∀ p ∈ pairs, ∃ t, (p : HValue × HValue).1 = .vstr t) →
      (pairs.map fun p => strBytes p.1).Nodup →
      ser W fuel (.vdict pairs) indent level true =
        ser W fuel (.vdict pairs') indent level true) :=
  ⟨by rfl, bubbleSort_sorted, bubbleSort_perm, fun _ _ => bubbleSort_eq_of_perm,
    fun W fuel pairs pairs' i l hp hs hn => ser_dict_perm W fuel pairs pairs' i l hp hs hn⟩

/-- Witness for the hypotheses of `c6_sort_keys_ascending`: the two-key
example in both insertion orders. -/
theorem c6_sort_keys_ascending_witness :
    bubbleSort [[98], [97]] = bubbleSort [[97], [98]] ∧
    ser 64 5 (.vdict [(.vstr [98], .vint 1), (.vstr [97], .vint 2)]) 0 0 true =
      ser 64 5 (.vdict [(.vstr [97], .vint 2), (.vstr [98], .vint 1)]) 0 0 true :=
  ⟨c6_sort_keys_ascending.2.2.2.1 [[98], [97]] [[97], [98]] (List.Perm.swap _ _ _),
   c6_sort_keys_ascending.2.2.2.2 64 5 _ _ 0 0 (List.Perm.swap _ _ _)
     (by
       intro p hp
       rcases List.mem_cons.mp hp with rfl | hp2
       · exact ⟨[98], rfl⟩
       · rcases List.mem_cons.mp hp2 with rfl | h3
         · exact ⟨[97], rfl⟩
         · cases h3)
     (by decide)⟩

/-! ## Encoder error conditions (C4) -/

lemma mapME_ok_mem {α β ε : Type} (f : α → Except ε β) :
    ∀ (l : List α) (out : List β), mapME f l = .ok out → ∀ a ∈ l, ∃ b, f a = .ok b := by
  intro l
  induction l with
  | nil => intro out _ a ha; cases ha
  | cons x t ih =>
    intro out h a ha
    simp only [mapME] at h
    cases hx : f x with
    | error e => rw [hx] at h; cases h
    | ok b =>
      rw [hx] at h
      cases ht : mapME f t with
      | error e => rw [ht] at h; cases h
      | ok bs =>
        rcases List.mem_cons.mp ha with rfl | ha'
        · exact ⟨b, hx⟩
        · exact ih bs ht a ha'

lemma mapME_ok_of_all {α β ε : Type} (f : α → Except ε β) :
    ∀ (l : List α), (∀ a ∈ l, ∃ b, f a = .ok b) → ∃ out, mapME f l = .ok out := by
  intro l
  induction l with
  | nil => intro _; exact ⟨[], rfl⟩
  | cons x t ih =>
    intro h
    obtain ⟨b, hb⟩ := h x (by simp)
    obtain ⟨out, hout⟩ := ih fun a ha => h a (by simp [ha])
    exact ⟨b :: out, by simp [mapME, hb, hout, Except.map]⟩

lemma mapME_congr_ok {α β ε : Type} (f g : α → Except ε β) :
    ∀ (l : List α), (∀ a ∈ l, ∀ b, f a = .ok b → g a = .ok b) →
    ∀ out, mapME f l = .ok out → mapME g l = .ok out := by
  intro l
  induction l with
  | nil => intro _ out h; exact h
  | cons x t ih =>
    intro hfg out h
    simp only [mapME] at h ⊢
    cases hx : f x with
    | error e => rw [hx] at h; cases h
    | ok b =>
      rw [hx] at h
      cases ht : mapME f t with
      | error e => rw [ht] at h; cases h
      | ok bs =>
        rw [ht] at h
        rw [hfg x (by simp) b hx, ih (fun a ha b' hb' => hfg a (by simp [ha]) b' hb') bs ht]
        exact h

/-- A dict whose key collection fails serializes to that very error. -/
lemma ser_dict_err (W fuel i l : Nat) (sk : Bool) (p : HValue × HValue)
    (rest : List (HValue × HValue)) (e : EncErr)
    (hck : collectKeys (p :: rest) = .error e) :
    ser W (fuel + 1) (.vdict (p :: rest)) i l sk = .error e := by
  simp only [ser, hck]
  rfl

lemma ser_mono : ∀ (W fuel fuel' : Nat) (v : HValue) (i l : Nat) (sk : Bool) (out : List Nat),
    fuel ≤ fuel' → ser W fuel v i l sk = .ok out → ser W fuel' v i l sk = .ok out := by
  intro W fuel
  induction fuel with
  | zero => intro fuel' v i l sk out _ h; cases h
  | succ fuel ih =>
    intro fuel' v i l sk out hle h
    obtain ⟨f2, rfl⟩ : ∃ f2, fuel' = f2 + 1 := ⟨fuel' - 1, by omega⟩
    have hle' : fuel ≤ f2 := by omega
    cases v with
    | vnone => exact h
    | vbool b => cases b <;> exact h
    | vint n => exact h
    | vstr t => exact h
    | vfloat f => exact h
    | vother => exact h
    | vlist items =>
      simp only [ser] at h ⊢
      cases hm : mapME (fun w => ser W fuel w i (l + 1) sk) items with
      | error e => rw [hm] at h; cases h
      | ok parts =>
        rw [hm] at h
        rw [mapME_congr_ok _ _ items
          (fun a _ b hb => ih f2 a i (l + 1) sk b hle' hb) parts hm]
        exact h
    | vtuple items =>
      simp only [ser] at h ⊢
      cases hm : mapME (fun w => ser W fuel w i (l + 1) sk) items with
      | error e => rw [hm] at h; cases h
      | ok parts =>
        rw [hm] at h
        rw [mapME_congr_ok _ _ items
          (fun a _ b hb => ih f2 a i (l + 1) sk b hle' hb) parts hm]
        exact h
    | vdict pairs =>
      cases pairs with
      | nil => exact h
      | cons p rest =>
        cases hck : collectKeys (p :: rest) with
        | error e =>
          rw [ser_dict_err W fuel i l sk p rest e hck] at h
          cases h
        | ok ks =>
          rw [ser_dict_cons W fuel p rest i l sk ks hck] at h
          rw [ser_dict_cons W f2 p rest i l sk ks hck]
          cases hm : mapME (fun k =>
              match lookupPair (p :: rest) k with
              | some w =>
                (ser W fuel w i (l + 1) sk).map fun sv => escapeString k ++ [58, 32] ++ sv
              | none => .error .keyMissing) (if sk then bubbleSort ks else ks) with
          | error e => rw [hm] at h; cases h
          | ok parts =>
            rw [hm] at h
            rw [mapME_congr_ok _ _ (if sk then bubbleSort ks else ks) ?_ parts hm]
            · exact h
            · intro k _ b hb
              cases hlk : lookupPair (p :: rest) k with
              | none => rw [hlk] at hb; cases hb
              | some w =>
                rw [hlk] at hb
                have hb2 : (ser W fuel w i (l + 1) sk).map
                    (fun sv => escapeString k ++ [58, 32] ++ sv) = Except.ok b := hb
                show (ser W f2 w i (l + 1) sk).map
                    (fun sv => escapeString k ++ [58, 32] ++ sv) = Except.ok b
                cases hsv : ser W fuel w i (l + 1) sk with
                | error e => rw [hsv] at hb2; cases hb2
                | ok sv =>
                  rw [hsv] at hb2
                  rw [ih f2 w i (l + 1) sk sv hle' hsv]
                  exact hb2

lemma lookupPair_mem_value : ∀ (pairs : List (HValue × HValue)) (k : List Nat) (v : HValue),
    lookupPair pairs k = some v → ∃ q ∈ pairs, v = (q : HValue × HValue).2 := by
  intro pairs
  induction pairs with
  | nil => intro k v h; cases h
  | cons p rest ih =>
    intro k v h
    obtain ⟨k', v'⟩ := p
    cases k' <;> simp only [lookupPair] at h
    case vstr t =>
      by_cases he : t = k
      · rw [if_pos he] at h
        cases h
        exact ⟨(HValue.vstr t, v), by simp, rfl⟩
      · rw [if_neg he] at h
        obtain ⟨q, hq, hv⟩ := ih k v h
        exact ⟨q, by simp [hq], hv⟩
    all_goals
      obtain ⟨q, hq, hv⟩ := ih k v h
      exact ⟨q, by simp [hq], hv⟩

lemma lookupPair_exists : ∀ (pairs : List (HValue × HValue)),
    (∀ p ∈ pairs, ∃ t, (p : HValue × HValue).1 = .vstr t) →
    ∀ k, k ∈ pairs.map (fun p => strBytes p.1) → ∃ v, lookupPair pairs k = some v := by
  intro pairs
  induction pairs with
  | nil => intro _ k hk; cases hk
  | cons p rest ih =>
    intro hstr k hk
    obtain ⟨k', v'⟩ := p
    obtain ⟨t, ht⟩ := hstr (k', v') (by simp)
    simp only at ht
    subst ht
    simp only [lookupPair]
    by_cases he : t = k
    · rw [if_pos he]
      exact ⟨v', rfl⟩
    · rw [if_neg he]
      apply ih fun q hq => hstr q (by simp [hq])
      simp only [List.map_cons, strBytes] at hk
      rcases List.mem_cons.mp hk with rfl | hk'
      · exact absurd rfl he
      · exact hk'

/-- Serialization success at any fuel implies well-formedness and that every
reachable integer fits the machine word (given the host-dict
duplicate-free-keys invariant). -/
lemma ser_ok_wf : ∀ (W fuel : Nat) (v : HValue) (i l : Nat) (sk : Bool) (out : List Nat),
    ser W fuel v i l sk = .ok out → NKeys v → JsonOk v ∧ IntsFit W v := by
  intro W fuel
  induction fuel with
  | zero => intro v i l sk out h _; cases h
  | succ fuel ih =>
    intro v i l sk out h hnk
    cases v with
    | vnone => exact ⟨.vnone, .vnone⟩
    | vbool b => exact ⟨.vbool b, .vbool b⟩
    | vint n =>
      simp only [ser] at h
      by_cases hf : fitsWord W n = true
      · exact ⟨.vint n, .vint n hf⟩
      · rw [if_neg hf] at h
        cases h
    | vstr t => exact ⟨.vstr t, .vstr t⟩
    | vother => cases h
    | vfloat f =>
      simp only [ser] at h
      by_cases hf : (f.isinf || f.isnan) = true
      · rw [if_pos hf] at h
        cases h
      · have hff := hf
        simp only [Bool.or_eq_true, not_or, Bool.not_eq_true] at hff
        exact ⟨.vfloat f hff.1 hff.2, .vfloat f⟩
    | vlist items =>
      cases hnk with
      | vlist _ hchild =>
        simp only [ser] at h
        cases hm : mapME (fun w => ser W fuel w i (l + 1) sk) items with
        | error e => rw [hm] at h; cases h
        | ok parts =>
          have hall : ∀ v ∈ items, JsonOk v ∧ IntsFit W v := fun v hv => by
            obtain ⟨b, hb⟩ := mapME_ok_mem _ items parts hm v hv
            exact ih v i (l + 1) sk b hb (hchild v hv)
          exact ⟨.vlist items fun v hv => (hall v hv).1,
            .vlist items fun v hv => (hall v hv).2⟩
    | vtuple items =>
      cases hnk with
      | vtuple _ hchild =>
        simp only [ser] at h
        cases hm : mapME (fun w => ser W fuel w i (l + 1) sk) items with
        | error e => rw [hm] at h; cases h
        | ok parts =>
          have hall : ∀ v ∈ items, JsonOk v ∧ IntsFit W v := fun v hv => by
            obtain ⟨b, hb⟩ := mapME_ok_mem _ items parts hm v hv
            exact ih v i (l + 1) sk b hb (hchild v hv)
          exact ⟨.vtuple items fun v hv => (hall v hv).1,
            .vtuple items fun v hv => (hall v hv).2⟩
    | vdict pairs =>
      cases hnk with
      | vdict _ hnd hchild =>
        cases pairs with
        | nil => exact ⟨.vdict [] (by simp) (by simp), .vdict [] (by simp)⟩
        | cons p rest =>
          cases hck : collectKeys (p :: rest) with
          | error e =>
            rw [ser_dict_err W fuel i l sk p rest e hck] at h
            cases h
          | ok ks =>
            rw [ser_dict_cons W fuel p rest i l sk ks hck] at h
            obtain ⟨hstr, hks⟩ := collectKeys_ok_str (p :: rest) ks hck
            cases hm : mapME (fun k =>
                match lookupPair (p :: rest) k with
                | some w =>
                  (ser W fuel w i (l + 1) sk).map fun sv => escapeString k ++ [58, 32] ++ sv
                | none => .error .keyMissing) (if sk then bubbleSort ks else ks) with
            | error e => rw [hm] at h; cases h
            | ok parts =>
              have hall : ∀ q ∈ p :: rest, JsonOk q.2 ∧ IntsFit W q.2 := fun q hq => by
                obtain ⟨t, ht⟩ := hstr q hq
                have htks : t ∈ ks := by
                  rw [hks]
                  have : strBytes q.1 = t := by rw [ht]; rfl
                  exact this ▸ List.mem_map_of_mem _ hq
                have htk1 : t ∈ (if sk then bubbleSort ks else ks) := by
                  cases sk with
                  | false => simpa using htks
                  | true =>
                    simp only [if_pos]
                    exact (bubbleSort_perm ks).mem_iff.mpr htks
                obtain ⟨b, hb⟩ := mapME_ok_mem _ _ parts hm t htk1
                have hqpair : q = (HValue.vstr t, q.2) := by
                  obtain ⟨q1, q2⟩ := q
                  simp only at ht
                  rw [ht]
                have hlk : lookupPair (p :: rest) t = some q.2 := by
                  apply (lookupPair_iff_mem (p :: rest) hstr hnd t q.2).mpr
                  rw [← hqpair]
                  exact hq
                rw [hlk] at hb
                have hb2 : (ser W fuel q.2 i (l + 1) sk).map
                    (fun sv => escapeString t ++ [58, 32] ++ sv) = Except.ok b := hb
                cases hsv : ser W fuel q.2 i (l + 1) sk with
                | error e => rw [hsv] at hb2; cases hb2
                | ok sv => exact ih q.2 i (l + 1) sk sv hsv (hchild q hq)
              exact ⟨.vdict (p :: rest) hstr fun q hq => (hall q hq).1,
                .vdict (p :: rest) fun q hq => (hall q hq).2⟩

/-- A common fuel bound for finitely many fuelled successes. -/
lemma exists_fuel_mapME {α : Type} (g : Nat → α → Except EncErr (List Nat))
    (hmono : ∀ f f' a b, f ≤ f' → g f a = .ok b → g f' a = .ok b) :
    ∀ (l : List α), (∀ a ∈ l, ∃ fuel b, g fuel a = .ok b) →
    ∃ F, ∀ a ∈ l, ∃ b, g F a = .ok b := by
  intro l
  induction l with
  | nil => intro _; exact ⟨0, by simp⟩
  | cons x t ih =>
    intro h
    obtain ⟨fx, bx, hbx⟩ := h x (by simp)
    obtain ⟨F, hF⟩ := ih fun a ha => h a (by simp [ha])
    refine ⟨max fx F, ?_⟩
    intro a ha
    rcases List.mem_cons.mp ha with rfl | ha'
    · exact ⟨bx, hmono fx _ a bx (le_max_left _ _) hbx⟩
    · obtain ⟨b, hb⟩ := hF a ha'
      exact ⟨b, hmono F _ a b (le_max_right _ _) hb⟩

/-- Well-formed values whose integers all fit the machine word serialize
successfully at some fuel. -/
lemma jsonOk_ser : ∀ (W : Nat) (v : HValue), JsonOk v → IntsFit W v → ∀ (i l : Nat) (sk : Bool),
    ∃ fuel out, ser W fuel v i l sk = .ok out := by
  intro W v hok
  induction hok with
  | vnone => intro _ i l sk; exact ⟨1, _, rfl⟩
  | vbool b =>
    intro _ i l sk
    cases b
    · exact ⟨1, _, rfl⟩
    · exact ⟨1, _, rfl⟩
  | vint n =>
    intro hfit i l sk
    cases hfit with
    | vint _ hf => exact ⟨1, intDec n, by simp [ser, hf]⟩
  | vstr t => intro _ i l sk; exact ⟨1, _, rfl⟩
  | vfloat f h1 h2 =>
    intro _ i l sk
    exact ⟨1, f.fmt, by simp [ser, h1, h2]⟩
  | vlist items hchild ih =>
    intro hfit i l sk
    have hfits : ∀ v ∈ items, IntsFit W v := by
      cases hfit with
      | vlist _ h => exact h
    obtain ⟨F, hF⟩ := exists_fuel_mapME (fun fuel w => ser W fuel w i (l + 1) sk)
      (fun f f' a b hle hb => ser_mono W f f' a i (l + 1) sk b hle hb) items
      (fun v hv => by
        obtain ⟨fuel, out, hout⟩ := ih v hv (hfits v hv) i (l + 1) sk
        exact ⟨fuel, out, hout⟩)
    obtain ⟨parts, hparts⟩ := mapME_ok_of_all _ items hF
    exact ⟨F + 1, arrOut i l parts, by simp [ser, hparts, Except.map]⟩
  | vtuple items hchild ih =>
    intro hfit i l sk
    have hfits : ∀ v ∈ items, IntsFit W v := by
      cases hfit with
      | vtuple _ h => exact h
    obtain ⟨F, hF⟩ := exists_fuel_mapME (fun fuel w => ser W fuel w i (l + 1) sk)
      (fun f f' a b hle hb => ser_mono W f f' a i (l + 1) sk b hle hb) items
      (fun v hv => by
        obtain ⟨fuel, out, hout⟩ := ih v hv (hfits v hv) i (l + 1) sk
        exact ⟨fuel, out, hout⟩)
    obtain ⟨parts, hparts⟩ := mapME_ok_of_all _ items hF
    exact ⟨F + 1, arrOut i l parts, by simp [ser, hparts, Except.map]⟩
  | vdict pairs hk hv ihv =>
    intro hfit i l sk
    have hfits : ∀ p ∈ pairs, IntsFit W (p : HValue × HValue).2 := by
      cases hfit with
      | vdict _ h => exact h
    cases pairs with
    | nil => exact ⟨1, _, rfl⟩
    | cons p rest =>
      have hck := collectKeys_eq_of_str (p :: rest) hk
      have gmono : ∀ f f' k b, f ≤ f' →
          (match lookupPair (p :: rest) k with
           | some w => (ser W f w i (l + 1) sk).map fun sv => escapeString k ++ [58, 32] ++ sv
           | none => Except.error EncErr.keyMissing) = .ok b →
          (match lookupPair (p :: rest) k with
           | some w => (ser W f' w i (l + 1) sk).map fun sv => escapeString k ++ [58, 32] ++ sv
           | none => Except.error EncErr.keyMissing) = .ok b := by
        intro f f' k b hle hb
        cases hlk : lookupPair (p :: rest) k with
        | none => rw [hlk] at hb; cases hb
        | some w =>
          rw [hlk] at hb
          have hb2 : (ser W f w i (l + 1) sk).map
              (fun sv => escapeString k ++ [58, 32] ++ sv) = Except.ok b := hb
          show (ser W f' w i (l + 1) sk).map
              (fun sv => escapeString k ++ [58, 32] ++ sv) = Except.ok b
          cases hsv : ser W f w i (l + 1) sk with
          | error e => rw [hsv] at hb2; cases hb2
          | ok sv =>
            rw [hsv] at hb2
            rw [ser_mono W f f' w i (l + 1) sk sv hle hsv]
            exact hb2
      have hexist : ∀ k ∈ (if sk then bubbleSort ((p :: rest).map fun x => strBytes x.1)
          else (p :: rest).map fun x => strBytes x.1), ∃ fuel b,
          (match lookupPair (p :: rest) k with
           | some w => (ser W fuel w i (l + 1) sk).map fun sv => escapeString k ++ [58, 32] ++ sv
           | none => Except.error EncErr.keyMissing) = .ok b := by
        intro k hk1
        have hkks : k ∈ (p :: rest).map fun x => strBytes x.1 := by
          cases sk with
          | false => simpa using hk1
          | true =>
            simp only [if_pos] at hk1
            exact (bubbleSort_perm _).mem_iff.mp hk1
        obtain ⟨w, hw⟩ := lookupPair_exists (p :: rest) hk k hkks
        obtain ⟨q, hq, rfl⟩ := lookupPair_mem_value (p :: rest) k w hw
        obtain ⟨fw, out, hout⟩ := ihv q hq (hfits q hq) i (l + 1) sk
        refine ⟨fw, escapeString k ++ [58, 32] ++ out, ?_⟩
        rw [hw]
        show (ser W fw q.2 i (l + 1) sk).map
            (fun sv => escapeString k ++ [58, 32] ++ sv) = _
        rw [hout]
        rfl
      obtain ⟨F, hF⟩ := exists_fuel_mapME _ gmono _ hexist
      obtain ⟨parts, hparts⟩ := mapME_ok_of_all _ _ hF
      refine ⟨F + 1, objOut i l parts, ?_⟩
      rw [ser_dict_cons W F p rest i l sk _ hck, hparts]
      rfl

lemma collectKeys_err : ∀ (pairs : List (HValue × HValue)),
    (∃ p ∈ pairs, ∀ t, (p : HValue × HValue).1 ≠ .vstr t) →
    collectKeys pairs = .error .keysMustBeStrings := by
  intro pairs
  induction pairs with
  | nil =>
    rintro ⟨p, hp, _⟩
    cases hp
  | cons q rest ih =>
    rintro ⟨p, hp, hnp⟩
    obtain ⟨k, v⟩ := q
    cases k with
    | vstr t =>
      rcases List.mem_cons.mp hp with rfl | hp'
      · exact absurd rfl (hnp t)
      · simp only [collectKeys]
        rw [ih ⟨p, hp', hnp⟩]
        rfl
    | vnone => rfl
    | vbool b => rfl
    | vint n => rfl
    | vfloat f => rfl
    | vlist l => rfl
    | vtuple l => rfl
    | vdict d => rfl
    | vother => rfl

lemma ser_dict_badkey (W fuel i l : Nat) (sk : Bool) (pairs : List (HValue × HValue))
    (h : ∃ p ∈ pairs, ∀ t, (p : HValue × HValue).1 ≠ .vstr t) :
    ser W (fuel + 1) (.vdict pairs) i l sk = .error .keysMustBeStrings := by
  cases pairs with
  | nil =>
    obtain ⟨p, hp, _⟩ := h
    cases hp
  | cons q rest => exact ser_dict_err W fuel i l sk q rest _ (collectKeys_err _ h)

/-- An integer wider than the machine word always raises `OverflowError`. -/
lemma ser_int_overflow (W fuel i l : Nat) (sk : Bool) (n : Int)
    (h : fitsWord W n = false) :
    ser W (fuel + 1) (.vint n) i l sk = .error .overflow := by
  simp [ser, h]

/-- C4, counterexample to the claim as stated: the decoded value of the
20-digit literal `10000000000000000000` is in the spec's supported variant
set (an integer, hence well-formed), yet serializing it raises the
`OverflowError` of `mp_obj_get_int` (line 334) at every fuel, on a 64-bit
host as well as a 32-bit one — a raise on a well-formed value, outside the
claim's (a)/(b)/(c) list. -/
theorem c4_counterexample :
    JsonOk (.vint (10 ^ 19)) ∧
    jsonLoads (asciiBytes "10000000000000000000") = .ok (.vint (10 ^ 19)) ∧
    (∀ fuel, ser 64 (fuel + 1) (.vint (10 ^ 19)) 0 0 false = .error .overflow) ∧
    (∀ fuel, ser 32 (fuel + 1) (.vint (10 ^ 19)) 0 0 false = .error .overflow) :=
  ⟨.vint _, by rfl,
   fun fuel => ser_int_overflow 64 fuel 0 0 false _ (by decide),
   fun fuel => ser_int_overflow 32 fuel 0 0 false _ (by decide)⟩

/-- C4, amended: with the machine-word overflow added to the raise-set, the
characterization is exact for every word width `W`: serialization success at
any fuel implies the value is well-formed with every reachable integer
fitting `mp_int_t` (given the host-dict duplicate-free-keys invariant);
every such value serializes at some fuel; and the raises are exactly
(a) NaN/Infinity floats, (b) a non-string dict key, (c) an unsupported
value, and (d) an integer wider than `mp_int_t`. -/
theorem c4_amended_encode_errors :
    (∀ W fuel v i l sk out, ser W fuel v i l sk = .ok out → NKeys v →
      JsonOk v ∧ IntsFit W v) ∧
    (∀ W v, JsonOk v → IntsFit W v → ∀ i l sk, ∃ fuel out, ser W fuel v i l sk = .ok out) ∧
    (∀ W fuel (f : MpFloat) i l sk, f.isnan = true ∨ f.isinf = true →
      ser W (fuel + 1) (.vfloat f) i l sk = .error .floatOutOfRange) ∧
    (∀ W fuel i l sk pairs, (∃ p ∈ pairs, ∀ t, (p : HValue × HValue).1 ≠ .vstr t) →
      ser W (fuel + 1) (.vdict pairs) i l sk = .error .keysMustBeStrings) ∧
    (∀ W fuel i l sk, ser W (fuel + 1) .vother i l sk = .error .notSerializable) ∧
    (∀ W fuel n i l sk, fitsWord W n = false →
      ser W (fuel + 1) (.vint n) i l sk = .error .overflow) := by
  refine ⟨ser_ok_wf, jsonOk_ser, ?_, ser_dict_badkey, fun _ _ _ _ _ => rfl,
    fun W fuel n i l sk h => ser_int_overflow W fuel i l sk n h⟩
  intro W fuel f i l sk hf
  simp only [ser]
  have hcond : (f.isinf || f.isnan) = true := by
    rcases hf with h | h <;> simp [h]
  rw [if_pos hcond]

/-- Witness for the hypotheses of `c4_amended_encode_errors`: a singleton
list value on a 64-bit word, a NaN float, an integer-keyed dict, and an
overflowing integer. -/
theorem c4_amended_encode_errors_witness :
    (JsonOk (HValue.vlist [.vint 1]) ∧ IntsFit 64 (HValue.vlist [.vint 1])) ∧
    (∃ fuel out, ser 64 fuel (HValue.vlist [.vint 1]) 0 0 false = .ok out) ∧
    ser 64 3 (.vfloat ⟨true, false, []⟩) 0 0 false = .error .floatOutOfRange ∧
    ser 64 3 (.vdict [(.vint 1, .vnone)]) 0 0 false = .error .keysMustBeStrings ∧
    ser 64 3 (.vint (2 ^ 64)) 0 0 false = .error .overflow := by
  have hnk : NKeys (HValue.vlist [.vint 1]) := by
    refine .vlist _ fun v hv => ?_
    rcases List.mem_cons.mp hv with rfl | h
    · exact .vint 1
    · cases h
  have hwf : JsonOk (HValue.vlist [.vint 1]) ∧ IntsFit 64 (HValue.vlist [.vint 1]) :=
    c4_amended_encode_errors.1 64 2 _ 0 0 false [91, 49, 93] (by rfl) hnk
  refine ⟨hwf, c4_amended_encode_errors.2.1 64 _ hwf.1 hwf.2 0 0 false, ?_, ?_, ?_⟩
  · exact c4_amended_encode_errors.2.2.1 64 2 _ 0 0 false (Or.inl rfl)
  · exact c4_amended_encode_errors.2.2.2.1 64 2 0 0 false _
      ⟨(.vint 1, .vnone), by simp, fun t h => by cases h⟩
  · exact c4_amended_encode_errors.2.2.2.2.2 64 2 (2 ^ 64) 0 0 false (by decide)

/-! ## Output shape (C9) -/

lemma sepJoin_compact_spec : ∀ (ps : List (List Nat)) (level : Nat),
    sepJoin 0 level true ps = specSeq [44, 32] ps ∧
    sepJoin 0 level false ps =
      (match ps with
       | [] => []
       | _ :: _ => [44, 32] ++ specSeq [44, 32] ps) := by
  intro ps
  induction ps with
  | nil => intro level; exact ⟨rfl, rfl⟩
  | cons p ps ih =>
    intro level
    have htrue : sepJoin 0 level true (p :: ps) = specSeq [44, 32] (p :: ps) := by
      simp only [sepJoin, addIndent, if_pos, if_neg]
      rw [(ih level).2]
      cases ps with
      | nil => simp [specSeq]
      | cons q ps' => simp [specSeq]
    refine ⟨htrue, ?_⟩
    simp only [sepJoin, addIndent] at htrue ⊢
    rw [(ih level).2] at htrue ⊢
    cases ps with
    | nil => simp [specSeq] at htrue ⊢
    | cons q ps' => simp [specSeq] at htrue ⊢

lemma sepJoin_indent_spec : ∀ (k : Nat), 0 < k → ∀ (ps : List (List Nat)) (level : Nat),
    sepJoin k level true ps =
      specSeq [44] (ps.map fun p => 10 :: (List.replicate (k * (level + 1)) 32 ++ p)) ∧
    sepJoin k level false ps =
      (match ps with
       | [] => []
       | _ :: _ =>
        [44] ++ specSeq [44] (ps.map fun p => 10 :: (List.replicate (k * (level + 1)) 32 ++ p))) := by
  intro k hk ps
  induction ps with
  | nil => intro level; exact ⟨rfl, rfl⟩
  | cons p ps ih =>
    intro level
    have hne : ¬k = 0 := by omega
    have htrue : sepJoin k level true (p :: ps) =
        specSeq [44] ((p :: ps).map fun p => 10 :: (List.replicate (k * (level + 1)) 32 ++ p)) := by
      simp only [sepJoin, addIndent, if_pos hk, List.map_cons]
      rw [(ih level).2]
      cases ps with
      | nil => simp [specSeq]
      | cons q ps' => simp [specSeq, hne]
    refine ⟨htrue, ?_⟩
    simp only [sepJoin, addIndent, if_pos hk, if_neg hne, List.map_cons] at htrue ⊢
    rw [(ih level).2] at htrue ⊢
    cases ps with
    | nil => simp [specSeq] at htrue ⊢
    | cons q ps' =>
      simp [specSeq, hne] at htrue ⊢

lemma arrOut_compact (level : Nat) (parts : List (List Nat)) :
    arrOut 0 level parts = specCompactArr parts := by
  cases parts with
  | nil => rfl
  | cons p ps =>
    simp only [arrOut, specCompactArr, addIndent]
    rw [(sepJoin_compact_spec (p :: ps) level).1]
    simp

lemma arrOut_indent (k level : Nat) (hk : 0 < k) (parts : List (List Nat)) :
    arrOut k level parts = specIndentArr k level parts := by
  cases parts with
  | nil => rfl
  | cons p ps =>
    simp only [arrOut, specIndentArr, addIndent, if_pos hk]
    rw [(sepJoin_indent_spec k hk (p :: ps) level).1]
    simp

lemma objOut_compact (level : Nat) (parts : List (List Nat)) :
    objOut 0 level parts = specCompactObj parts := by
  simp only [objOut, specCompactObj, addIndent]
  rw [(sepJoin_compact_spec parts level).1]
  simp

lemma objOut_indent (k level : Nat) (hk : 0 < k) (parts : List (List Nat)) :
    objOut k level parts = specIndentObj k level parts := by
  simp only [objOut, specIndentObj, addIndent, if_pos hk]
  rw [(sepJoin_indent_spec k hk parts level).1]
  simp

/-- C9: compact mode separates elements with `", "` and keys from values
with `": "`; indent mode puts a newline and `k * (level + 1)` spaces before
each element and a newline and `k * level` spaces before the closing
bracket of a non-empty container; empty containers have no internal
newlines; and the spec's `dumps([1,2], indent=2)` example. -/
theorem c9_separators_and_indent :
    (∀ W fuel level sk items parts,
      mapME (fun w => ser W fuel w 0 (level + 1) sk) items = .ok parts →
      ser W (fuel + 1) (.vlist items) 0 level sk = .ok (specCompactArr parts)) ∧
    (∀ W fuel k level sk items parts, 0 < k →
      mapME (fun w => ser W fuel w k (level + 1) sk) items = .ok parts →
      ser W (fuel + 1) (.vlist items) k level sk = .ok (specIndentArr k level parts)) ∧
    (∀ W fuel level sk p rest ks parts, collectKeys (p :: rest) = .ok ks →
      mapME (fun k =>
        match lookupPair (p :: rest) k with
        | some w => (ser W fuel w 0 (level + 1) sk).map fun sv => escapeString k ++ [58, 32] ++ sv
        | none => .error .keyMissing) (if sk then bubbleSort ks else ks) = .ok parts →
      ser W (fuel + 1) (.vdict (p :: rest)) 0 level sk = .ok (specCompactObj parts)) ∧
    (∀ W fuel kk level sk p rest ks parts, 0 < kk → collectKeys (p :: rest) = .ok ks →
      mapME (fun k =>
        match lookupPair (p :: rest) k with
        | some w => (ser W fuel w kk (level + 1) sk).map fun sv => escapeString k ++ [58, 32] ++ sv
        | none => .error .keyMissing) (if sk then bubbleSort ks else ks) = .ok parts →
      ser W (fuel + 1) (.vdict (p :: rest)) kk level sk = .ok (specIndentObj kk level parts)) ∧
    (∀ W fuel t w sv level sk, ser W fuel w 0 (level + 1) sk = .ok sv →
      ser W (fuel + 1) (.vdict [(.vstr t, w)]) 0 level sk =
        .ok (123 :: (escapeString t ++ 58 :: 32 :: sv ++ [125]))) ∧
    (∀ W fuel k level sk, ser W (fuel + 1) (.vlist []) k level sk = .ok [91, 93]) ∧
    (∀ W fuel k level sk, ser W (fuel + 1) (.vdict []) k level sk = .ok [123, 125]) ∧
    jsonDumps 64 9 (.vlist [.vint 1, .vint 2]) (some 2) false =
      .ok (asciiBytes "[\n  1,\n  2\n]") := by
  refine ⟨?_, ?_, ?_, ?_, ?_, fun _ _ _ _ _ => rfl, fun _ _ _ _ _ => rfl, by rfl⟩
  · intro W fuel level sk items parts hm
    simp only [ser, hm, Except.map]
    rw [arrOut_compact]
  · intro W fuel k level sk items parts hk hm
    simp only [ser, hm, Except.map]
    rw [arrOut_indent k level hk]
  · intro W fuel level sk p rest ks parts hck hm
    rw [ser_dict_cons W fuel p rest 0 level sk ks hck, hm]
    simp only [Except.map]
    rw [objOut_compact]
  · intro W fuel kk level sk p rest ks parts hkk hck hm
    rw [ser_dict_cons W fuel p rest kk level sk ks hck, hm]
    simp only [Except.map]
    rw [objOut_indent kk level hkk]
  · intro W fuel t w sv level sk hsv
    rw [ser_dict_cons W fuel (.vstr t, w) [] 0 level sk [t] rfl]
    have hkeys : (if sk then bubbleSort [t] else [t]) = [t] := by cases sk <;> rfl
    rw [hkeys]
    simp [mapME, lookupPair, hsv, Except.map, objOut, sepJoin, addIndent]

/-- Witness for the hypotheses of `c9_separators_and_indent`: a singleton
array in both modes and a singleton object in compact mode. -/
theorem c9_separators_and_indent_witness :
    ser 64 3 (.vlist [.vint 1]) 0 0 false = .ok (specCompactArr [[49]]) ∧
    ser 64 3 (.vlist [.vint 1]) 2 0 false = .ok (specIndentArr 2 0 [[49]]) ∧
    ser 64 3 (.vdict [(.vstr [97], .vint 1)]) 0 0 false =
      .ok (123 :: (escapeString [97] ++ 58 :: 32 :: [49] ++ [125])) :=
  ⟨c9_separators_and_indent.1 64 2 0 false [.vint 1] [[49]] (by rfl),
   c9_separators_and_indent.2.1 64 2 2 0 false [.vint 1] [[49]] (by decide) (by rfl),
   c9_separators_and_indent.2.2.2.2.1 64 2 [97] (.vint 1) [49] 0 false (by rfl)⟩
